import Mathlib

/-!
Shallow embedding of the guint fixed-width unsigned integer library
(packages uint512 and uint1024).  Both Go packages are textual duplicates
differing only in the word count (8 resp. 16 words of 64 bits), so the
embedding is parameterised by the word count `nw`; each claim is then
instantiated at `nw = 8` (512 bits) and, where it speaks about the
16-word width, at `nw = 16` (1024 bits).

A value is the little-endian list of its 64-bit words (`words[0]` least
significant), words being natural numbers; validity (`validWords`) states
every word is below `2 ^ 64`.  Go's `bits.Add64`, `bits.Sub64` and
`bits.Mul64` are modelled by explicit `% 2 ^ 64` / `/ 2 ^ 64` arithmetic,
the Go bitwise operators by `&&&`, `|||`, `^^^`, `<<<`, `>>>` on `Nat`.
-/

namespace GUint

/-- Numeric value of a little-endian word list in base `2 ^ 64`. -/
def wordsVal : List Nat → Nat
  | [] => 0
  | w :: ws => w + 2 ^ 64 * wordsVal ws

/-- Every word fits in 64 bits. -/
def validWords (ws : List Nat) : Prop := ∀ w ∈ ws, w < 2 ^ 64

instance validWordsDec (ws : List Nat) : Decidable (validWords ws) :=
  List.decidableBAll _ ws

/-- Clone copies the words (pure value in the embedding). -/
def Clone (ws : List Nat) : List Nat := ws

/-- Global constant ZERO (all words zero). -/
def ZeroW (nw : Nat) : List Nat := List.replicate nw 0

/-- Global constant ONE (word 0 is 1, rest zero). -/
def OneW (nw : Nat) : List Nat := 1 :: List.replicate (nw - 1) 0

/-- Global constant MAX (all bits set). -/
def MaxW (nw : Nat) : List Nat := List.replicate nw (2 ^ 64 - 1)

/-- `New`: word 0 is the scalar, the rest zero. -/
def New (nw : Nat) (val : Nat) : List Nat := val :: List.replicate (nw - 1) 0

/-- `Equal`: word-wise equality. -/
def equalWords : List Nat → List Nat → Bool
  | [], [] => true
  | x :: xs, y :: ys => x == y && equalWords xs ys
  | _, _ => false

/-- `IsZero`: equality with the ZERO constant. -/
def IsZero (nw : Nat) (ws : List Nat) : Bool := equalWords ws (ZeroW nw)

/-- `Less` scans words most significant first; first differing word decides. -/
def lessRev : List Nat → List Nat → Bool
  | x :: xs, y :: ys => if x < y then true else if y < x then false else lessRev xs ys
  | _, _ => false

/-- `Less` on little-endian word lists. -/
def lessWords (a b : List Nat) : Bool := lessRev a.reverse b.reverse

/-- Word-wise addition with carry propagation (`bits.Add64` chain) as in `Add`. -/
def addLoop : List Nat → List Nat → Nat → List Nat
  | [], _, _ => []
  | _, [], _ => []
  | x :: xs, y :: ys, c => (x + y + c) % 2 ^ 64 :: addLoop xs ys ((x + y + c) / 2 ^ 64)

/-- `Add`: carry out of the most significant word is discarded. -/
def Add (a b : List Nat) : List Nat := addLoop a b 0

/-- The separate loop of `AddInPlace` (same carry chain written on the receiver). -/
def addInPlaceLoop : List Nat → List Nat → Nat → List Nat
  | [], _, _ => []
  | _, [], _ => []
  | x :: xs, y :: ys, c => (x + y + c) % 2 ^ 64 :: addInPlaceLoop xs ys ((x + y + c) / 2 ^ 64)

/-- `AddInPlace`: final state of the receiver. -/
def AddInPlace (a b : List Nat) : List Nat := addInPlaceLoop a b 0

/-- Word-wise subtraction with borrow (`bits.Sub64` chain) as in `Sub`:
per word the difference is `x - y - borrow` wrapped mod `2 ^ 64`, and the
borrow out is 1 exactly when `x < y + borrow`. -/
def subLoop : List Nat → List Nat → Nat → List Nat
  | [], _, _ => []
  | _, [], _ => []
  | x :: xs, y :: ys, c =>
    (x + 2 ^ 64 - (y + c)) % 2 ^ 64 :: subLoop xs ys (if x < y + c then 1 else 0)

/-- `Sub`: borrow out of the most significant word is discarded. -/
def Sub (a b : List Nat) : List Nat := subLoop a b 0

/-- The separate loop of `SubInPlace`. -/
def subInPlaceLoop : List Nat → List Nat → Nat → List Nat
  | [], _, _ => []
  | _, [], _ => []
  | x :: xs, y :: ys, c =>
    (x + 2 ^ 64 - (y + c)) % 2 ^ 64 :: subInPlaceLoop xs ys (if x < y + c then 1 else 0)

/-- `SubInPlace`: final state of the receiver. -/
def SubInPlace (a b : List Nat) : List Nat := subInPlaceLoop a b 0

/-- Inner `j` loop of `Mul`: for the fixed word `ai` of the first operand,
walk the words of the second operand; `pos = i + j`.  The 128-bit product
`ai * bj` is split as `hi`/`lo` (`bits.Mul64`); `lo` is accumulated into
`res[pos]` with carry and `hi` into `res[pos+1]` (when that index exists),
carrying exactly like the Go code.  Returns the updated result array and
the carry left when the loop ends. -/
def mulInner (ai : Nat) : List Nat → List Nat → Nat → Nat → List Nat × Nat
  | [], res, _, carry => (res, carry)
  | bj :: bs, res, pos, carry =>
    if pos < res.length then
      if bj == 0 then mulInner ai bs res (pos + 1) carry
      else
        let lo := ai * bj % 2 ^ 64
        let hi := ai * bj / 2 ^ 64
        let s1 := res.getD pos 0 + lo + carry
        let res1 := res.set pos (s1 % 2 ^ 64)
        if pos + 1 < res1.length then
          let s2 := res1.getD (pos + 1) 0 + hi + s1 / 2 ^ 64
          mulInner ai bs (res1.set (pos + 1) (s2 % 2 ^ 64)) (pos + 1) (s2 / 2 ^ 64)
        else mulInner ai bs res1 (pos + 1) (s1 / 2 ^ 64)
    else (res, carry)

/-- Residual-carry propagation after the inner loop of `Mul`: starting at
index `k`, add the carry into successive result words while it is nonzero
and the index is in range.  The fuel (`res.length` at the call site) bounds
the iteration count, which Go bounds by the same condition `k < len`. -/
def propagateCarry : Nat → List Nat → Nat → Nat → List Nat
  | 0, res, _, _ => res
  | fuel + 1, res, k, carry =>
    if carry ≠ 0 ∧ k < res.length then
      propagateCarry fuel (res.set k ((res.getD k 0 + carry) % 2 ^ 64)) (k + 1)
        ((res.getD k 0 + carry) / 2 ^ 64)
    else res

/-- Outer `i` loop of `Mul` over the words of the first operand. -/
def mulOuter : List Nat → List Nat → List Nat → Nat → List Nat
  | [], _, res, _ => res
  | ai :: arest, bs, res, i =>
    if ai == 0 then mulOuter arest bs res (i + 1)
    else
      let p := mulInner ai bs res i 0
      mulOuter arest bs (propagateCarry p.1.length p.1 (i + bs.length) p.2) (i + 1)

/-- `Mul`: schoolbook multiplication into a result array of `resLen` words
(16 words both for the 512-bit `Mul`, whose result type is the wide
`Uint1024`, and for the 1024-bit `Mul`, which truncates into `Uint1024`). -/
def Mul (a b : List Nat) (resLen : Nat) : List Nat :=
  mulOuter a b (List.replicate resLen 0) 0

/-- Bit-level left shift with carry between adjacent words (`ShlInPlace`
phase 2): each word becomes `(w <<< b) | carry` and passes `w >>> (64 - b)`
up to the next word. -/
def shlCarryLoop (b : Nat) : Nat → List Nat → List Nat
  | _, [] => []
  | c, w :: ws => ((w <<< b) % 2 ^ 64 ||| c) :: shlCarryLoop b (w >>> (64 - b)) ws

/-- `ShlInPlace`: left shift by `k` bits of an `nw`-word value.  `k = 0`
returns unchanged; `k ≥ 64 * nw` zeroes everything; otherwise a whole-word
shift by `k / 64` (zero-filling from below) followed by the bit-level shift
by `k % 64` on the words from index `k / 64` up. -/
def ShlInPlace (nw : Nat) (ws : List Nat) (k : Nat) : List Nat :=
  if k = 0 then ws
  else if 64 * nw ≤ k then List.replicate nw 0
  else
    let s := k / 64
    let b := k % 64
    let ws1 := if 0 < s then List.replicate s 0 ++ ws.take (nw - s) else ws
    if 0 < b then ws1.take s ++ shlCarryLoop b 0 (ws1.drop s) else ws1

/-- `Shl`: clone then shift in place. -/
def Shl (nw : Nat) (ws : List Nat) (k : Nat) : List Nat := ShlInPlace nw (Clone ws) k

/-- Bit-level right shift with carry between adjacent words (`ShrInPlace`
phase 2), iterating from the most significant word down: each word becomes
`(w >>> b) | carry` and passes `(w <<< (64 - b)) mod 2 ^ 64` down.  The
result pairs the rewritten words with the carry the lowest word hands
further down (discarded at the list front). -/
def shrCarryLoop (b : Nat) : List Nat → List Nat × Nat
  | [] => ([], 0)
  | w :: ws =>
    let p := shrCarryLoop b ws
    (((w >>> b) ||| p.2) :: p.1, (w <<< (64 - b)) % 2 ^ 64)

/-- `ShrInPlace`: right shift by `k` bits of an `nw`-word value. -/
def ShrInPlace (nw : Nat) (ws : List Nat) (k : Nat) : List Nat :=
  if k = 0 then ws
  else if 64 * nw ≤ k then List.replicate nw 0
  else
    let s := k / 64
    let b := k % 64
    let ws1 := if 0 < s then ws.drop s ++ List.replicate s 0 else ws
    if 0 < b then (shrCarryLoop b (ws1.take (nw - s))).1 ++ ws1.drop (nw - s) else ws1

/-- `Shr`: clone then shift in place. -/
def Shr (nw : Nat) (ws : List Nat) (k : Nat) : List Nat := ShrInPlace nw (Clone ws) k

/-- `And`: word-wise bitwise AND. -/
def And (a b : List Nat) : List Nat := List.zipWith (fun x y => x &&& y) a b

/-- `Bit i`: false for `i` outside `[0, 64 * nw)` (index is a Go `int`,
so it can be negative), else tests bit `i % 64` of word `i / 64`. -/
def Bit (nw : Nat) (ws : List Nat) (i : Int) : Bool :=
  if i < 0 ∨ (64 * nw : Int) ≤ i then false
  else (ws.getD (i.toNat / 64) 0 &&& (1 <<< (i.toNat % 64))) != 0

/-- `SetBit i`: no-op for `i` outside `[0, 64 * nw)`, else ORs in the mask. -/
def SetBit (nw : Nat) (ws : List Nat) (i : Int) : List Nat :=
  if i < 0 ∨ (64 * nw : Int) ≤ i then ws
  else ws.set (i.toNat / 64) (ws.getD (i.toNat / 64) 0 ||| (1 <<< (i.toNat % 64)))

/-- `ClearBit i`: no-op out of range, else `AND NOT` (`&^`) with the mask;
the Go complement `^mask` on `uint64` is `mask XOR (2 ^ 64 - 1)`. -/
def ClearBit (nw : Nat) (ws : List Nat) (i : Int) : List Nat :=
  if i < 0 ∨ (64 * nw : Int) ≤ i then ws
  else ws.set (i.toNat / 64)
    (ws.getD (i.toNat / 64) 0 &&& ((1 <<< (i.toNat % 64)) ^^^ (2 ^ 64 - 1)))

/-- `FlipBit i`: no-op out of range, else XORs the mask. -/
def FlipBit (nw : Nat) (ws : List Nat) (i : Int) : List Nat :=
  if i < 0 ∨ (64 * nw : Int) ≤ i then ws
  else ws.set (i.toNat / 64) (ws.getD (i.toNat / 64) 0 ^^^ (1 <<< (i.toNat % 64)))

/-- `FromLimbs`: first `nw` limbs are copied, missing words are zero. -/
def FromLimbs (nw : Nat) (limbs : List Nat) : List Nat :=
  limbs.take nw ++ List.replicate (nw - (limbs.take nw).length) 0

/-- `ToLimbs`: a copy of the words. -/
def ToLimbs (ws : List Nat) : List Nat := ws

/-- `binary.LittleEndian.PutUint64`: the 8 bytes of a word, least
significant first. -/
def leBytesOfWord (w : Nat) : List Nat :=
  (List.range 8).map fun k => (w >>> (8 * k)) &&& 255

/-- `binary.BigEndian.PutUint64`: the 8 bytes of a word, most significant
first. -/
def beBytesOfWord (w : Nat) : List Nat :=
  (List.range 8).map fun k => (w >>> (8 * (7 - k))) &&& 255

/-- Value of a little-endian byte list in base 256
(`binary.LittleEndian.Uint64` on an 8-byte chunk). -/
def bytesValLE : List Nat → Nat
  | [] => 0
  | b :: bs => b + 256 * bytesValLE bs

/-- Value of a big-endian byte list (`binary.BigEndian.Uint64` on an
8-byte chunk). -/
def bytesValBE (bs : List Nat) : Nat := bytesValLE bs.reverse

/-- `ToLeBytes`: `8 * nw` bytes, word `i` encoded little-endian at offset
`8 * i`. -/
def ToLeBytes (ws : List Nat) : List Nat := (ws.map leBytesOfWord).flatten

/-- `ToBeBytes`: word order reversed and each word encoded big-endian. -/
def ToBeBytes (nw : Nat) (ws : List Nat) : List Nat :=
  ((List.range nw).map fun i => beBytesOfWord (ws.getD (nw - 1 - i) 0)).flatten

/-- `FromLeBytes`: keep the first `8 * nw` bytes; word `i` is read from the
8-byte chunk at offset `8 * i`, chunks beyond or crossing the end of the
data being zero-padded on their high side. -/
def FromLeBytes (nw : Nat) (data : List Nat) : List Nat :=
  let data1 := data.take (8 * nw)
  let padded := data1 ++ List.replicate (8 * nw - data1.length) 0
  (List.range nw).map fun i => bytesValLE ((padded.drop (8 * i)).take 8)

/-- `FromBeBytes`: keep the first `8 * nw` bytes, left-pad them with zero
bytes to the full `8 * nw` length, then read chunk `i` big-endian into
word `nw - 1 - i`. -/
def FromBeBytes (nw : Nat) (data : List Nat) : List Nat :=
  let data1 := data.take (8 * nw)
  if data1.length = 0 then List.replicate nw 0
  else
    let padded := List.replicate (8 * nw - data1.length) 0 ++ data1
    ((List.range nw).map fun i => bytesValBE ((padded.drop (8 * i)).take 8)).reverse

/-- Loop body of `divBySmall` for one word `w` with incoming remainder
`r`: the Go statements
`dividend := remainder<<32 | u.words[i]>>32`,
`u.words[i] = (u.words[i] & 0xFFFFFFFF) | (dividend/divisor)<<32`,
`remainder = dividend % divisor` followed by the same two statements for
the low half; returns the rewritten word and the outgoing remainder.  All
Go `uint64` operations carry their `% 2 ^ 64` wraparound. -/
def divBySmallWord (d r w : Nat) : Nat × Nat :=
  let dividend1 := ((r <<< 32) % 2 ^ 64) ||| (w >>> 32)
  let w1 := (w &&& 0xFFFFFFFF) ||| (((dividend1 / d) <<< 32) % 2 ^ 64)
  let r1 := dividend1 % d
  let dividend2 := ((r1 <<< 32) % 2 ^ 64) ||| (w1 &&& 0xFFFFFFFF)
  let w2 := (w1 &&& 0xFFFFFFFF00000000) ||| (dividend2 / d)
  (w2, dividend2 % d)

/-- `divBySmall`: divide in place by a small divisor, most significant word
first, processing each 64-bit word as two 32-bit halves (high half, then
low half) carrying the running remainder; returns the updated words and
the final remainder.  The recursion processes the tail (the more
significant words) first, matching the Go downward loop. -/
def divBySmallLoop (d : Nat) : List Nat → List Nat × Nat
  | [] => ([], 0)
  | w :: ws =>
    let p := divBySmallLoop d ws
    let q := divBySmallWord d p.2 w
    (q.1 :: p.1, q.2)

/-- Digit-collecting loop of `String`: repeatedly divide a clone by 10,
collecting `'0' + remainder` least significant digit first, until the
value is zero.  The fuel (`20 * nw` at the call site) dominates the digit
count of any `nw`-word value, so it never cuts the Go loop short. -/
def stringDigitsLoop (nw : Nat) : Nat → List Nat → List Char
  | 0, _ => []
  | fuel + 1, ws =>
    if IsZero nw ws then []
    else
      let p := divBySmallLoop 10 ws
      Char.ofNat (48 + p.2) :: stringDigitsLoop nw fuel p.1

/-- `String`: "0" for zero, else the collected digits reversed. -/
def ToDecString (nw : Nat) (ws : List Nat) : String :=
  if IsZero nw ws then "0"
  else String.mk (stringDigitsLoop nw (20 * nw) ws).reverse

/-- Binary long division loop of `Div`, processing bit `fuel - 1` down to
bit 0: shift the remainder left one bit, OR bit `i` of the dividend into
its least significant bit, and when the remainder is not below the divisor
subtract the divisor and set bit `i` of the quotient.  State is
`(quotient, remainder)`. -/
def divLoop (nw : Nat) (u other : List Nat) : Nat → List Nat × List Nat → List Nat × List Nat
  | 0, qr => qr
  | f + 1, qr =>
    let rem1 := ShlInPlace nw qr.2 1
    let rem2 := if Bit nw u (Int.ofNat f) then rem1.set 0 (rem1.getD 0 0 ||| 1) else rem1
    if lessWords rem2 other then divLoop nw u other f (qr.1, rem2)
    else divLoop nw u other f (SetBit nw qr.1 (Int.ofNat f), subInPlaceLoop rem2 other 0)

/-- Binary long division loop of `Mod`: same scan keeping only the
remainder. -/
def modLoop (nw : Nat) (u other : List Nat) : Nat → List Nat → List Nat
  | 0, rem => rem
  | f + 1, rem =>
    let rem1 := ShlInPlace nw rem 1
    let rem2 := if Bit nw u (Int.ofNat f) then rem1.set 0 (rem1.getD 0 0 ||| 1) else rem1
    if lessWords rem2 other then modLoop nw u other f rem2
    else modLoop nw u other f (subInPlaceLoop rem2 other 0)

/-- `Div`: fails exactly on a zero divisor; fast paths `a < b → 0` and
`a = b → 1`; otherwise binary long division over all `64 * nw` bits. -/
def Div (nw : Nat) (u other : List Nat) : Option (List Nat) :=
  if IsZero nw other then none
  else if lessWords u other then some (Clone (ZeroW nw))
  else if equalWords u other then some (Clone (OneW nw))
  else some (divLoop nw u other (64 * nw) (Clone (ZeroW nw), Clone (ZeroW nw))).1

/-- `Mod`: fails exactly on a zero divisor; fast paths `a < b → a` and
`a = b → 0`; otherwise the remainder of the same bit scan. -/
def Mod (nw : Nat) (u other : List Nat) : Option (List Nat) :=
  if IsZero nw other then none
  else if lessWords u other then some (Clone u)
  else if equalWords u other then some (Clone (ZeroW nw))
  else some (modLoop nw u other (64 * nw) (Clone (ZeroW nw)))

/-! ### Basic lemmas about word values -/

theorem wordsVal_nil : wordsVal [] = 0 := rfl

theorem wordsVal_cons (w : Nat) (ws : List Nat) :
    wordsVal (w :: ws) = w + 2 ^ 64 * wordsVal ws := rfl

theorem wordsVal_lt {ws : List Nat} (h : validWords ws) :
    wordsVal ws < 2 ^ (64 * ws.length) := by
  induction ws with
  | nil => simp [wordsVal]
  | cons w ws ih =>
    have hw : w < 2 ^ 64 := h w (by simp)
    have hV : wordsVal ws < 2 ^ (64 * ws.length) := ih fun x hx => h x (by simp [hx])
    have h1 : wordsVal ws + 1 ≤ 2 ^ (64 * ws.length) := hV
    calc w + 2 ^ 64 * wordsVal ws < 2 ^ 64 + 2 ^ 64 * wordsVal ws := by omega
      _ = 2 ^ 64 * (wordsVal ws + 1) := by ring
      _ ≤ 2 ^ 64 * 2 ^ (64 * ws.length) := Nat.mul_le_mul_left _ h1
      _ = 2 ^ (64 * (ws.length + 1)) := by rw [← pow_add]; ring_nf

theorem wordsVal_inj : ∀ {a b : List Nat}, validWords a → validWords b →
    a.length = b.length → wordsVal a = wordsVal b → a = b := by
  intro a
  induction a with
  | nil => intro b _ _ hl _; cases b with
    | nil => rfl
    | cons y ys => simp at hl
  | cons x xs ih =>
    intro b ha hb hl hv
    cases b with
    | nil => simp at hl
    | cons y ys =>
      have hx : x < 2 ^ 64 := ha x (by simp)
      have hy : y < 2 ^ 64 := hb y (by simp)
      simp only [wordsVal_cons] at hv
      have hx2 : x = y := by
        have e1 : (x + 2 ^ 64 * wordsVal xs) % 2 ^ 64 = x := by
          rw [Nat.add_mul_mod_self_left, Nat.mod_eq_of_lt hx]
        have e2 : (y + 2 ^ 64 * wordsVal ys) % 2 ^ 64 = y := by
          rw [Nat.add_mul_mod_self_left, Nat.mod_eq_of_lt hy]
        rw [← e1, ← e2, hv]
      have hv2 : wordsVal xs = wordsVal ys := by
        have := hv
        rw [hx2] at this
        have h2 : 2 ^ 64 * wordsVal xs = 2 ^ 64 * wordsVal ys := by omega
        exact Nat.eq_of_mul_eq_mul_left (by positivity) h2
      have : xs = ys :=
        ih (fun w hw => ha w (by simp [hw])) (fun w hw => hb w (by simp [hw]))
          (by simpa using hl) hv2
      rw [hx2, this]

theorem wordsVal_append (a b : List Nat) :
    wordsVal (a ++ b) = wordsVal a + 2 ^ (64 * a.length) * wordsVal b := by
  induction a with
  | nil => simp [wordsVal]
  | cons x xs ih =>
    simp only [List.cons_append, wordsVal_cons, ih, List.length_cons]
    have : (64 * (xs.length + 1)) = 64 * xs.length + 64 := by ring
    rw [this, pow_add]
    ring

theorem wordsVal_replicate_zero (n : Nat) : wordsVal (List.replicate n 0) = 0 := by
  induction n with
  | zero => rfl
  | succ n ih => simp [List.replicate_succ, wordsVal_cons, ih]

theorem validWords_replicate_zero (n : Nat) : validWords (List.replicate n 0) := by
  intro w hw
  rw [List.eq_of_mem_replicate hw]
  positivity

theorem equalWords_iff : ∀ a b : List Nat, equalWords a b = true ↔ a = b := by
  intro a
  induction a with
  | nil => intro b; cases b <;> simp [equalWords]
  | cons x xs ih => intro b; cases b with
    | nil => simp [equalWords]
    | cons y ys => simp [equalWords, ih]

theorem IsZero_iff (nw : Nat) (ws : List Nat) :
    IsZero nw ws = true ↔ ws = List.replicate nw 0 := by
  unfold IsZero ZeroW
  exact equalWords_iff ws (List.replicate nw 0)

/-! ### Claims C1, C2 (multiplication carry bug), C3, C9, C10 -/

/-- Claim C1 (refuted: code bug).  `Mul` on the 512-bit width is claimed to
return the full product in the 16-word wide value; at
`a = b = 2 ^ 128 - 1` (words `[2 ^ 64 - 1, 2 ^ 64 - 1, 0, …]`) the
returned wide value does not hold the full product `a * b`: the carry
generated when the high half of a partial product is accumulated at word
`i + j + 1` is consumed one word too low in the next inner iteration. -/
theorem mul_not_full_product :
    wordsVal (Mul [2 ^ 64 - 1, 2 ^ 64 - 1, 0, 0, 0, 0, 0, 0]
        [2 ^ 64 - 1, 2 ^ 64 - 1, 0, 0, 0, 0, 0, 0] 16)
      ≠ wordsVal [2 ^ 64 - 1, 2 ^ 64 - 1, 0, 0, 0, 0, 0, 0]
        * wordsVal [2 ^ 64 - 1, 2 ^ 64 - 1, 0, 0, 0, 0, 0, 0] := by decide

/-- The value `Mul` actually returns at that input: `[1, 0, 2^64-1, 2^64-2, 0, …]`,
whereas the true product `(2 ^ 128 - 1) ^ 2` has words `[1, 0, 2^64-2, 2^64-1, 0, …]`. -/
theorem mul_bug_exact_words :
    Mul [2 ^ 64 - 1, 2 ^ 64 - 1, 0, 0, 0, 0, 0, 0]
        [2 ^ 64 - 1, 2 ^ 64 - 1, 0, 0, 0, 0, 0, 0] 16
      = [1, 0, 2 ^ 64 - 1, 2 ^ 64 - 2, 0, 0, 0, 0, 0, 0, 0, 0, 0, 0, 0, 0] := by decide

set_option maxRecDepth 100000 in
/-- Claim C2 (refuted: code bug).  With `a = (2 ^ 128 - 1) ^ 2` and
`b = 2 ^ 128 - 1` on the 512-bit width, `Div` returns `q = 2 ^ 128 - 1` and
`Mod` returns `r = 0` (both correct), but the checked identity
`Div(a,b) * b + Mod(a,b) == a`, with the product taken via the code's wide
multiplication and truncated to 8 words, fails because of the carry bug in
`Mul`. -/
theorem div_mul_add_mod_identity_fails :
    Div 8 [1, 0, 2 ^ 64 - 2, 2 ^ 64 - 1, 0, 0, 0, 0]
        [2 ^ 64 - 1, 2 ^ 64 - 1, 0, 0, 0, 0, 0, 0]
      = some [2 ^ 64 - 1, 2 ^ 64 - 1, 0, 0, 0, 0, 0, 0] ∧
    Mod 8 [1, 0, 2 ^ 64 - 2, 2 ^ 64 - 1, 0, 0, 0, 0]
        [2 ^ 64 - 1, 2 ^ 64 - 1, 0, 0, 0, 0, 0, 0]
      = some [0, 0, 0, 0, 0, 0, 0, 0] ∧
    Add ((Mul [2 ^ 64 - 1, 2 ^ 64 - 1, 0, 0, 0, 0, 0, 0]
          [2 ^ 64 - 1, 2 ^ 64 - 1, 0, 0, 0, 0, 0, 0] 16).take 8)
        [0, 0, 0, 0, 0, 0, 0, 0]
      ≠ [1, 0, 2 ^ 64 - 2, 2 ^ 64 - 1, 0, 0, 0, 0] := by
  refine ⟨by decide, by decide, by decide⟩

theorem div_isNone (nw : Nat) (a b : List Nat) :
    (Div nw a b).isNone = IsZero nw b := by
  unfold Div
  by_cases h : IsZero nw b
  · simp [h]
  · simp only [h, Bool.false_eq_true, if_false]
    split
    · simp [h]
    · split <;> simp [h]

theorem mod_isNone (nw : Nat) (a b : List Nat) :
    (Mod nw a b).isNone = IsZero nw b := by
  unfold Mod
  by_cases h : IsZero nw b
  · simp [h]
  · simp only [h, Bool.false_eq_true, if_false]
    split
    · simp [h]
    · split <;> simp [h]

/-- Claim C3 (confirmed).  On both widths, `Div` and `Mod` fail (return
`none`, the embedding of the Go error return) exactly when the divisor is
the zero value; the absence of any other failure channel is visible in the
types of every other operation of the embedding, which are total
functions. -/
theorem div_mod_fail_iff_zero_divisor (a b : List Nat) :
    ((Div 8 a b).isNone ↔ IsZero 8 b = true) ∧
    ((Mod 8 a b).isNone ↔ IsZero 8 b = true) ∧
    ((Div 16 a b).isNone ↔ IsZero 16 b = true) ∧
    ((Mod 16 a b).isNone ↔ IsZero 16 b = true) := by
  refine ⟨?_, ?_, ?_, ?_⟩ <;>
    simp only [div_isNone, mod_isNone]

/-- Claim C9 (confirmed).  On both widths, a bit index outside
`[0, width)` (negative included, the index being a Go `int`) makes
`SetBit`, `ClearBit` and `FlipBit` leave the value unchanged and makes
`Bit` return false. -/
theorem bit_ops_out_of_range_noop (ws : List Nat) (i : Int) :
    ((i < 0 ∨ 512 ≤ i) →
      Bit 8 ws i = false ∧ SetBit 8 ws i = ws ∧
      ClearBit 8 ws i = ws ∧ FlipBit 8 ws i = ws) ∧
    ((i < 0 ∨ 1024 ≤ i) →
      Bit 16 ws i = false ∧ SetBit 16 ws i = ws ∧
      ClearBit 16 ws i = ws ∧ FlipBit 16 ws i = ws) := by
  constructor
  · intro h
    have hc : i < 0 ∨ (64 * (8 : Nat) : Int) ≤ i := by push_cast; omega
    refine ⟨?_, ?_, ?_, ?_⟩ <;> simp only [Bit, SetBit, ClearBit, FlipBit, if_pos hc]
  · intro h
    have hc : i < 0 ∨ (64 * (16 : Nat) : Int) ≤ i := by push_cast; omega
    refine ⟨?_, ?_, ?_, ?_⟩ <;> simp only [Bit, SetBit, ClearBit, FlipBit, if_pos hc]

/-- Witness for C9 at concrete out-of-range indices. -/
theorem bit_ops_out_of_range_noop_witness :
    Bit 8 (New 8 5) (-1) = false ∧ SetBit 16 (New 16 5) 1024 = New 16 5 :=
  ⟨((bit_ops_out_of_range_noop (New 8 5) (-1)).1 (Or.inl (by norm_num))).1,
   ((bit_ops_out_of_range_noop (New 16 5) 1024).2 (Or.inr (by norm_num))).2.1⟩

theorem addInPlaceLoop_eq_addLoop : ∀ (xs ys : List Nat) (c : Nat),
    addInPlaceLoop xs ys c = addLoop xs ys c := by
  intro xs
  induction xs with
  | nil => intro ys c; cases ys <;> simp [addInPlaceLoop, addLoop]
  | cons x xs ih =>
    intro ys c
    cases ys with
    | nil => simp [addInPlaceLoop, addLoop]
    | cons y ys => simp [addInPlaceLoop, addLoop, ih]

theorem subInPlaceLoop_eq_subLoop : ∀ (xs ys : List Nat) (c : Nat),
    subInPlaceLoop xs ys c = subLoop xs ys c := by
  intro xs
  induction xs with
  | nil => intro ys c; cases ys <;> simp [subInPlaceLoop, subLoop]
  | cons x xs ih =>
    intro ys c
    cases ys with
    | nil => simp [subInPlaceLoop, subLoop]
    | cons y ys => simp [subInPlaceLoop, subLoop, ih]

/-- Claim C10 (confirmed).  Every in-place variant leaves the receiver
holding exactly the value its copy-returning counterpart would return for
the original operands: the Go pairs duplicate the same word loop
(`Add`/`AddInPlace`, `Sub`/`SubInPlace`), and `Shl`/`Shr` are defined as
clone-then-in-place, on both widths. -/
theorem in_place_eq_copy (a b : List Nat) (k : Nat) :
    AddInPlace a b = Add a b ∧ SubInPlace a b = Sub a b ∧
    ShlInPlace 8 a k = Shl 8 a k ∧ ShrInPlace 8 a k = Shr 8 a k ∧
    ShlInPlace 16 a k = Shl 16 a k ∧ ShrInPlace 16 a k = Shr 16 a k := by
  refine ⟨?_, ?_, rfl, rfl, rfl, rfl⟩
  · simpa [AddInPlace, Add] using addInPlaceLoop_eq_addLoop a b 0
  · simpa [SubInPlace, Sub] using subInPlaceLoop_eq_subLoop a b 0

/-! ### Claim C4: subtraction wraps modulo `2 ^ (64 * nw)` -/

theorem subLoop_length : ∀ (a b : List Nat) (c : Nat), a.length = b.length →
    (subLoop a b c).length = a.length := by
  intro a
  induction a with
  | nil => intro b c _; cases b <;> simp [subLoop]
  | cons x xs ih =>
    intro b c hl
    cases b with
    | nil => simp at hl
    | cons y ys =>
      simp only [subLoop, List.length_cons]
      rw [ih ys _ (by simpa using hl)]

theorem subLoop_valid : ∀ (a b : List Nat) (c : Nat), validWords (subLoop a b c) := by
  intro a
  induction a with
  | nil => intro b c; cases b <;> simp [subLoop, validWords]
  | cons x xs ih =>
    intro b c
    cases b with
    | nil => simp [subLoop, validWords]
    | cons y ys =>
      intro w hw
      simp only [subLoop, List.mem_cons] at hw
      rcases hw with h | h
      · rw [h]; exact Nat.mod_lt _ (by positivity)
      · exact ih ys _ w h

theorem subLoop_val : ∀ (a b : List Nat) (c : Nat), a.length = b.length →
    validWords a → validWords b → c ≤ 1 →
    wordsVal (subLoop a b c) + wordsVal b + c =
      wordsVal a + (if wordsVal a < wordsVal b + c then 2 ^ (64 * a.length) else 0) := by
  intro a
  induction a with
  | nil =>
    intro b c hl _ _ hc
    cases b with
    | nil =>
      simp only [subLoop, wordsVal_nil, List.length_nil, Nat.mul_zero, pow_zero,
        Nat.zero_add, Nat.add_zero]
      split <;> omega
    | cons y ys => simp at hl
  | cons x xs ih =>
    intro b c hl ha hb hc
    cases b with
    | nil => simp at hl
    | cons y ys =>
      have hx : x < 2 ^ 64 := ha x (by simp)
      have hy : y < 2 ^ 64 := hb y (by simp)
      have hl' : xs.length = ys.length := by simpa using hl
      have hax : validWords xs := fun w hw => ha w (by simp [hw])
      have hby : validWords ys := fun w hw => hb w (by simp [hw])
      have hstep : subLoop (x :: xs) (y :: ys) c =
          (x + 2 ^ 64 - (y + c)) % 2 ^ 64 :: subLoop xs ys (if x < y + c then 1 else 0) := rfl
      have hc'le : (if x < y + c then 1 else 0) ≤ 1 := by split <;> omega
      have iha := ih ys (if x < y + c then 1 else 0) hl' hax hby hc'le
      have hd : (x + 2 ^ 64 - (y + c)) % 2 ^ 64 + (y + c) =
          x + 2 ^ 64 * (if x < y + c then 1 else 0) := by
        split <;> omega
      rw [hstep]
      simp only [wordsVal_cons, List.length_cons]
      have hpow : (2 : Nat) ^ (64 * (xs.length + 1)) = 2 ^ 64 * 2 ^ (64 * xs.length) := by
        rw [← pow_add]; ring_nf
      rw [hpow]
      generalize hP : (2 : Nat) ^ (64 * xs.length) = P at iha ⊢
      by_cases h1 : wordsVal xs < wordsVal ys + (if x < y + c then 1 else 0)
      · rw [if_pos h1] at iha
        by_cases h2 : x + 2 ^ 64 * wordsVal xs < y + 2 ^ 64 * wordsVal ys + c
        · rw [if_pos h2]
          omega
        · rw [if_neg h2]
          exfalso
          by_cases h3 : x < y + c <;>
            simp only [h3, if_true, if_false] at hd iha h1 <;> omega
      · rw [if_neg h1] at iha
        by_cases h2 : x + 2 ^ 64 * wordsVal xs < y + 2 ^ 64 * wordsVal ys + c
        · rw [if_pos h2]
          exfalso
          by_cases h3 : x < y + c <;>
            simp only [h3, if_true, if_false] at hd iha h1 <;> omega
        · rw [if_neg h2]
          omega

theorem sub_val_general (a b : List Nat) (hl : a.length = b.length)
    (ha : validWords a) (hb : validWords b) :
    wordsVal (Sub a b) = (wordsVal a + 2 ^ (64 * a.length) - wordsVal b) % 2 ^ (64 * a.length) ∧
    (wordsVal a < wordsVal b →
      wordsVal (Sub a b) = 2 ^ (64 * a.length) + wordsVal a - wordsVal b) := by
  have hmain := subLoop_val a b 0 hl ha hb (by omega)
  have hS : wordsVal (subLoop a b 0) < 2 ^ (64 * a.length) := by
    have := wordsVal_lt (subLoop_valid a b 0)
    rwa [subLoop_length a b 0 hl] at this
  have hA : wordsVal a < 2 ^ (64 * a.length) := wordsVal_lt ha
  have hY : wordsVal b < 2 ^ (64 * b.length) := wordsVal_lt hb
  rw [← hl] at hY
  simp only [Nat.add_zero] at hmain
  unfold Sub
  by_cases h : wordsVal a < wordsVal b
  · rw [if_pos h] at hmain
    have hv : wordsVal (subLoop a b 0) =
        2 ^ (64 * a.length) + wordsVal a - wordsVal b := by omega
    refine ⟨?_, fun _ => hv⟩
    rw [hv, Nat.mod_eq_of_lt (by omega)]
    omega
  · rw [if_neg h] at hmain
    push_neg at h
    have hv : wordsVal (subLoop a b 0) = wordsVal a - wordsVal b := by omega
    refine ⟨?_, fun hcon => absurd hcon (by omega)⟩
    rw [hv]
    have : wordsVal a + 2 ^ (64 * a.length) - wordsVal b =
        wordsVal a - wordsVal b + 2 ^ (64 * a.length) := by omega
    rw [this, Nat.add_mod_right, Nat.mod_eq_of_lt (by omega)]

/-- Claim C4 (confirmed).  On both widths, `Sub` computes the difference
modulo `2 ^ (64 * N)`: in general the result value is
`(a + 2 ^ (64 N) - b) mod 2 ^ (64 N)`, and when `a < b` it equals
`2 ^ (64 N) + a - b` (the borrow out of the top word is discarded); no
error is signalled (`Sub` is a total function). -/
theorem sub_wraps_modulo (a b : List Nat) :
    (a.length = 8 → b.length = 8 → validWords a → validWords b →
      wordsVal (Sub a b) = (wordsVal a + 2 ^ 512 - wordsVal b) % 2 ^ 512 ∧
      (wordsVal a < wordsVal b →
        wordsVal (Sub a b) = 2 ^ 512 + wordsVal a - wordsVal b)) ∧
    (a.length = 16 → b.length = 16 → validWords a → validWords b →
      wordsVal (Sub a b) = (wordsVal a + 2 ^ 1024 - wordsVal b) % 2 ^ 1024 ∧
      (wordsVal a < wordsVal b →
        wordsVal (Sub a b) = 2 ^ 1024 + wordsVal a - wordsVal b)) := by
  constructor
  · intro hla hlb ha hb
    have h := sub_val_general a b (by rw [hla, hlb]) ha hb
    rw [hla] at h
    have he : (64 * 8 : Nat) = 512 := by norm_num
    rw [he] at h
    exact h
  · intro hla hlb ha hb
    have h := sub_val_general a b (by rw [hla, hlb]) ha hb
    rw [hla] at h
    have he : (64 * 16 : Nat) = 1024 := by norm_num
    rw [he] at h
    exact h

/-- Witness for C4: `3 - 5` on the 512-bit width wraps to `2 ^ 512 - 2`. -/
theorem sub_wraps_modulo_witness :
    wordsVal (Sub (New 8 3) (New 8 5)) = 2 ^ 512 + 3 - 5 := by
  have h := (sub_wraps_modulo (New 8 3) (New 8 5)).1 rfl rfl
    (by decide) (by decide)
  have hlt : wordsVal (New 8 3) < wordsVal (New 8 5) := by
    simp [New, wordsVal_cons, wordsVal_replicate_zero]
  have h2 := h.2 hlt
  rw [h2]
  simp [New, wordsVal_cons, wordsVal_nil, wordsVal_replicate_zero]

/-! ### Byte-level lemmas for the codecs (claims C5, C7) -/

/-- Every byte fits in 8 bits. -/
def validBytes (bs : List Nat) : Prop := ∀ b ∈ bs, b < 256

instance validBytesDec (bs : List Nat) : Decidable (validBytes bs) :=
  List.decidableBAll _ bs

theorem bytesValLE_nil : bytesValLE [] = 0 := rfl

theorem bytesValLE_cons (b : Nat) (bs : List Nat) :
    bytesValLE (b :: bs) = b + 256 * bytesValLE bs := rfl

theorem bytesValLE_append (a b : List Nat) :
    bytesValLE (a ++ b) = bytesValLE a + 256 ^ a.length * bytesValLE b := by
  induction a with
  | nil => simp [bytesValLE]
  | cons x xs ih =>
    simp only [List.cons_append, bytesValLE_cons, ih, List.length_cons]
    rw [pow_succ]
    ring

theorem bytesValLE_replicate_zero (n : Nat) : bytesValLE (List.replicate n 0) = 0 := by
  induction n with
  | zero => rfl
  | succ n ih => simp [List.replicate_succ, bytesValLE_cons, ih]

theorem bytesValLE_lt {bs : List Nat} (h : validBytes bs) :
    bytesValLE bs < 256 ^ bs.length := by
  induction bs with
  | nil => simp [bytesValLE]
  | cons b bs ih =>
    have hb : b < 256 := h b (by simp)
    have hV : bytesValLE bs < 256 ^ bs.length := ih fun x hx => h x (by simp [hx])
    have h1 : bytesValLE bs + 1 ≤ 256 ^ bs.length := hV
    calc b + 256 * bytesValLE bs < 256 + 256 * bytesValLE bs := by omega
      _ = 256 * (bytesValLE bs + 1) := by ring
      _ ≤ 256 * 256 ^ bs.length := Nat.mul_le_mul_left _ h1
      _ = 256 ^ (bs.length + 1) := by rw [pow_succ]; ring

theorem leBytesOfWord_length (w : Nat) : (leBytesOfWord w).length = 8 := by
  simp [leBytesOfWord]

theorem leBytesOfWord_valid (w : Nat) : validBytes (leBytesOfWord w) := by
  intro b hb
  simp only [leBytesOfWord, List.mem_map] at hb
  obtain ⟨k, _, hk⟩ := hb
  have : w >>> (8 * k) &&& 255 ≤ 255 := Nat.and_le_right
  omega

theorem bytesValLE_range_map (w m : Nat) :
    bytesValLE ((List.range m).map fun k => w / 256 ^ k % 256) = w % 256 ^ m := by
  induction m with
  | zero => simp [bytesValLE, Nat.mod_one]
  | succ m ih =>
    rw [List.range_succ, List.map_append, bytesValLE_append]
    simp only [List.map_cons, List.map_nil, List.length_map, List.length_range]
    have hone : bytesValLE [w / 256 ^ m % 256] = w / 256 ^ m % 256 := by
      simp [bytesValLE_cons, bytesValLE_nil]
    rw [hone, ih, pow_succ, Nat.mod_mul]

theorem leBytesOfWord_arith (w : Nat) :
    leBytesOfWord w = (List.range 8).map fun k => w / 256 ^ k % 256 := by
  unfold leBytesOfWord
  apply List.map_congr_left
  intro k _
  rw [Nat.shiftRight_eq_div_pow]
  have h255 : (255 : Nat) = 2 ^ 8 - 1 := by norm_num
  rw [h255, Nat.and_pow_two_sub_one_eq_mod]
  have he : (2 : Nat) ^ (8 * k) = 256 ^ k := by
    rw [pow_mul]
    norm_num
  rw [he]

theorem bytesValLE_leBytesOfWord {w : Nat} (hw : w < 2 ^ 64) :
    bytesValLE (leBytesOfWord w) = w := by
  rw [leBytesOfWord_arith, bytesValLE_range_map]
  exact Nat.mod_eq_of_lt (by norm_num at hw ⊢; omega)

theorem ToLeBytes_length (ws : List Nat) : (ToLeBytes ws).length = 8 * ws.length := by
  induction ws with
  | nil => rfl
  | cons w ws ih =>
    simp only [ToLeBytes, List.map_cons, List.flatten_cons, List.length_append,
      leBytesOfWord_length, List.length_cons]
    rw [show (ws.map leBytesOfWord).flatten = ToLeBytes ws from rfl] at *
    omega

theorem ToLeBytes_valid (ws : List Nat) : validBytes (ToLeBytes ws) := by
  induction ws with
  | nil => intro b hb; simp [ToLeBytes] at hb
  | cons w ws ih =>
    intro b hb
    simp only [ToLeBytes, List.map_cons, List.flatten_cons, List.mem_append] at hb
    rcases hb with h | h
    · exact leBytesOfWord_valid w b h
    · exact ih b h

theorem bytesValLE_ToLeBytes {ws : List Nat} (h : validWords ws) :
    bytesValLE (ToLeBytes ws) = wordsVal ws := by
  induction ws with
  | nil => rfl
  | cons w ws ih =>
    have hw : w < 2 ^ 64 := h w (by simp)
    simp only [ToLeBytes, List.map_cons, List.flatten_cons, bytesValLE_append,
      leBytesOfWord_length, wordsVal_cons]
    rw [show (ws.map leBytesOfWord).flatten = ToLeBytes ws from rfl,
      bytesValLE_leBytesOfWord hw, ih fun x hx => h x (by simp [hx])]
    norm_num

theorem parseLE_spec : ∀ (nw : Nat) (bs : List Nat), bs.length = 8 * nw → validBytes bs →
    wordsVal ((List.range nw).map fun i => bytesValLE ((bs.drop (8 * i)).take 8))
        = bytesValLE bs ∧
      validWords ((List.range nw).map fun i => bytesValLE ((bs.drop (8 * i)).take 8)) := by
  intro nw
  induction nw with
  | zero =>
    intro bs hl _
    have : bs = [] := List.eq_nil_of_length_eq_zero (by omega)
    subst this
    simp [wordsVal, validWords, bytesValLE]
  | succ nw ih =>
    intro bs hl hv
    have hlen8 : 8 ≤ bs.length := by omega
    have htail : (List.range (nw + 1)).map
          (fun i => bytesValLE ((bs.drop (8 * i)).take 8))
        = bytesValLE (bs.take 8)
            :: (List.range nw).map fun i => bytesValLE (((bs.drop 8).drop (8 * i)).take 8) := by
      rw [List.range_succ_eq_map, List.map_cons, List.map_map]
      refine List.cons_eq_cons.mpr ⟨by simp, ?_⟩
      refine List.map_congr_left fun i _ => ?_
      simp only [Function.comp_apply]
      rw [List.drop_drop, show (8 : Nat) + 8 * i = 8 * (i + 1) from by ring]
    have hdl : (bs.drop 8).length = 8 * nw := by
      simp only [List.length_drop]
      omega
    have hdv : validBytes (bs.drop 8) := fun b hb => hv b (List.mem_of_mem_drop hb)
    obtain ⟨ihval, ihvalid⟩ := ih (bs.drop 8) hdl hdv
    have hsplit : bytesValLE bs = bytesValLE (bs.take 8) + 2 ^ 64 * bytesValLE (bs.drop 8) := by
      conv_lhs => rw [← List.take_append_drop 8 bs]
      rw [bytesValLE_append]
      congr 2
      rw [List.length_take]
      have : min 8 bs.length = 8 := by omega
      rw [this]
      norm_num
    have hheadlt : bytesValLE (bs.take 8) < 2 ^ 64 := by
      have hvt : validBytes (bs.take 8) := fun b hb => hv b (List.mem_of_mem_take hb)
      have := bytesValLE_lt hvt
      have hlt : (bs.take 8).length = 8 := by
        rw [List.length_take]
        omega
      rw [hlt] at this
      norm_num at this ⊢
      omega
    constructor
    · rw [htail, wordsVal_cons, ihval, hsplit]
    · rw [htail]
      intro x hx
      rcases List.mem_cons.mp hx with h | h
      · rw [h]; exact hheadlt
      · exact ihvalid x h

theorem FromLeBytes_of_full_length {nw : Nat} {data : List Nat} (h : data.length = 8 * nw) :
    FromLeBytes nw data
      = (List.range nw).map fun i => bytesValLE ((data.drop (8 * i)).take 8) := by
  unfold FromLeBytes
  simp only [List.take_of_length_le (le_of_eq h), h, Nat.sub_self, List.replicate_zero,
    List.append_nil]

/-- Generic little-endian byte round trip. -/
theorem fromLe_toLe {nw : Nat} {a : List Nat} (ha : validWords a) (hl : a.length = nw) :
    FromLeBytes nw (ToLeBytes a) = a := by
  have hlen : (ToLeBytes a).length = 8 * nw := by rw [ToLeBytes_length, hl]
  rw [FromLeBytes_of_full_length hlen]
  obtain ⟨hval, hvalid⟩ := parseLE_spec nw (ToLeBytes a) hlen (ToLeBytes_valid a)
  apply wordsVal_inj hvalid ha
  · simp [hl]
  · rw [hval, bytesValLE_ToLeBytes ha]

/-- Generic limb round trip. -/
theorem fromLimbs_toLimbs {nw : Nat} {a : List Nat} (hl : a.length = nw) :
    FromLimbs nw (ToLimbs a) = a := by
  unfold FromLimbs ToLimbs
  rw [List.take_of_length_le (le_of_eq hl), hl]
  simp

theorem reverse_chunk {α : Type} (l : List α) (a b : Nat) (h : a + b ≤ l.length) :
    (l.reverse.drop a).take b = ((l.drop (l.length - a - b)).take b).reverse := by
  apply List.ext_getElem
  · simp only [List.length_take, List.length_drop, List.length_reverse]
    omega
  · intro k h1 h2
    simp only [List.length_take, List.length_drop, List.length_reverse] at h1 h2
    rw [List.getElem_take, List.getElem_drop, List.getElem_reverse, List.getElem_reverse]
    rw [List.getElem_take, List.getElem_drop]
    congr 1
    simp only [List.length_take, List.length_drop]
    omega

theorem range_map_getD_reverse : ∀ (ws : List Nat) (d : Nat),
    (List.range ws.length).map (fun i => ws.getD (ws.length - 1 - i) d) = ws.reverse := by
  intro ws
  induction ws with
  | nil => intro d; simp
  | cons w ws ih =>
    intro d
    rw [List.length_cons, List.range_succ, List.map_append]
    have htail : (List.range ws.length).map (fun i => (w :: ws).getD (ws.length + 1 - 1 - i) d)
        = (List.range ws.length).map (fun i => ws.getD (ws.length - 1 - i) d) := by
      refine List.map_congr_left fun i hi => ?_
      have hi' : i < ws.length := List.mem_range.mp hi
      have he : ws.length + 1 - 1 - i = (ws.length - 1 - i) + 1 := by omega
      rw [he, List.getD_cons_succ]
    rw [htail, ih d, List.reverse_cons]
    have h0 : ws.length + 1 - 1 - ws.length = 0 := by omega
    simp only [List.map_cons, List.map_nil, h0, List.getD_cons_zero]

theorem beBytesOfWord_length (w : Nat) : (beBytesOfWord w).length = 8 := by
  simp [beBytesOfWord]

theorem beBytesOfWord_valid (w : Nat) : validBytes (beBytesOfWord w) := by
  intro b hb
  simp only [beBytesOfWord, List.mem_map] at hb
  obtain ⟨k, _, hk⟩ := hb
  have : w >>> (8 * (7 - k)) &&& 255 ≤ 255 := Nat.and_le_right
  omega

theorem beBytesOfWord_reverse (w : Nat) : (beBytesOfWord w).reverse = leBytesOfWord w := by
  apply List.ext_getElem
  · simp [beBytesOfWord, leBytesOfWord]
  · intro k h1 h2
    simp only [leBytesOfWord, List.length_map, List.length_range] at h2
    rw [List.getElem_reverse]
    simp only [beBytesOfWord, leBytesOfWord, List.getElem_map, List.getElem_range,
      List.length_map, List.length_range]
    have he : 7 - (8 - 1 - k) = k := by omega
    rw [he]

theorem ToBeBytes_eq {nw : Nat} {ws : List Nat} (hl : ws.length = nw) :
    ToBeBytes nw ws = (ws.reverse.map beBytesOfWord).flatten := by
  unfold ToBeBytes
  congr 1
  subst hl
  rw [← range_map_getD_reverse ws 0, List.map_map]
  exact List.map_congr_left fun i _ => rfl

theorem flatten_beW_length (l : List Nat) :
    ((l.map beBytesOfWord).flatten).length = 8 * l.length := by
  induction l with
  | nil => rfl
  | cons w ws ih =>
    simp only [List.map_cons, List.flatten_cons, List.length_append, beBytesOfWord_length,
      List.length_cons, ih]
    ring

theorem flatten_beW_valid (l : List Nat) : validBytes ((l.map beBytesOfWord).flatten) := by
  induction l with
  | nil => intro b hb; simp at hb
  | cons w ws ih =>
    intro b hb
    simp only [List.map_cons, List.flatten_cons, List.mem_append] at hb
    rcases hb with h | h
    · exact beBytesOfWord_valid w b h
    · exact ih b h

theorem ToBeBytes_length {nw : Nat} {ws : List Nat} (hl : ws.length = nw) :
    (ToBeBytes nw ws).length = 8 * nw := by
  rw [ToBeBytes_eq hl, flatten_beW_length, List.length_reverse, hl]

theorem ToBeBytes_valid {nw : Nat} {ws : List Nat} (hl : ws.length = nw) :
    validBytes (ToBeBytes nw ws) := by
  rw [ToBeBytes_eq hl]
  exact flatten_beW_valid ws.reverse

theorem bytesValBE_ToBeBytes {nw : Nat} {ws : List Nat} (ha : validWords ws)
    (hl : ws.length = nw) : bytesValBE (ToBeBytes nw ws) = wordsVal ws := by
  rw [ToBeBytes_eq hl]
  unfold bytesValBE
  rw [List.reverse_flatten]
  have h1 : (ws.reverse.map beBytesOfWord).map List.reverse = ws.reverse.map leBytesOfWord := by
    rw [List.map_map]
    exact List.map_congr_left fun w _ => beBytesOfWord_reverse w
  rw [h1, ← List.map_reverse, List.reverse_reverse]
  rw [show (ws.map leBytesOfWord).flatten = ToLeBytes ws from rfl, bytesValLE_ToLeBytes ha]

theorem FromBeBytes_full {nw : Nat} {bs : List Nat} (hl : bs.length = 8 * nw)
    (hnw : 0 < nw) :
    FromBeBytes nw bs
      = (List.range nw).map fun j => bytesValLE ((bs.reverse.drop (8 * j)).take 8) := by
  unfold FromBeBytes
  simp only [List.take_of_length_le (le_of_eq hl), hl, Nat.sub_self, List.replicate_zero,
    List.nil_append]
  rw [if_neg (by omega)]
  apply List.ext_getElem
  · simp
  · intro j h1 h2
    simp only [List.length_reverse, List.length_map, List.length_range] at h1 h2
    rw [List.getElem_reverse]
    simp only [List.length_map, List.length_range, List.getElem_map, List.getElem_range]
    unfold bytesValBE
    rw [reverse_chunk bs (8 * j) 8 (by omega)]
    have he : bs.length - 8 * j - 8 = 8 * (nw - 1 - j) := by omega
    rw [he]

theorem FromBeBytes_spec_full {nw : Nat} {bs : List Nat} (hl : bs.length = 8 * nw)
    (hnw : 0 < nw) (hv : validBytes bs) :
    wordsVal (FromBeBytes nw bs) = bytesValBE bs ∧ validWords (FromBeBytes nw bs) ∧
      (FromBeBytes nw bs).length = nw := by
  rw [FromBeBytes_full hl hnw]
  have hrl : bs.reverse.length = 8 * nw := by simp [hl]
  have hrv : validBytes bs.reverse := fun b hb => hv b (List.mem_reverse.mp hb)
  obtain ⟨hval, hvalid⟩ := parseLE_spec nw bs.reverse hrl hrv
  exact ⟨hval, hvalid, by simp⟩

theorem bytesValBE_zero_pad (k : Nat) (data : List Nat) :
    bytesValBE (List.replicate k 0 ++ data) = bytesValBE data := by
  unfold bytesValBE
  rw [List.reverse_append, List.reverse_replicate, bytesValLE_append, bytesValLE_replicate_zero]
  simp

theorem FromBeBytes_pad {nw : Nat} {data : List Nat} (hdl : data.length ≤ 8 * nw)
    (h0 : data.length ≠ 0) :
    FromBeBytes nw data = FromBeBytes nw (List.replicate (8 * nw - data.length) 0 ++ data) := by
  have hpl : (List.replicate (8 * nw - data.length) 0 ++ data).length = 8 * nw := by
    simp only [List.length_append, List.length_replicate]
    omega
  unfold FromBeBytes
  simp only [List.take_of_length_le hdl, List.take_of_length_le (le_of_eq hpl), hpl,
    Nat.sub_self, List.replicate_zero, List.nil_append]
  rw [if_neg h0, if_neg (by omega)]

theorem FromBeBytes_spec {nw : Nat} {data : List Nat} (hdl : data.length ≤ 8 * nw)
    (hv : validBytes data) :
    wordsVal (FromBeBytes nw data) = bytesValBE data ∧ validWords (FromBeBytes nw data) ∧
      (FromBeBytes nw data).length = nw := by
  by_cases h0 : data.length = 0
  · have hd : data = [] := List.eq_nil_of_length_eq_zero h0
    subst hd
    have hz : FromBeBytes nw [] = List.replicate nw 0 := by
      unfold FromBeBytes
      simp
    rw [hz]
    refine ⟨?_, validWords_replicate_zero nw, by simp⟩
    rw [wordsVal_replicate_zero]
    rfl
  · have hnw : 0 < nw := by omega
    rw [FromBeBytes_pad hdl h0]
    have hpl : (List.replicate (8 * nw - data.length) 0 ++ data).length = 8 * nw := by
      simp only [List.length_append, List.length_replicate]
      omega
    have hpv : validBytes (List.replicate (8 * nw - data.length) 0 ++ data) := by
      intro b hb
      rcases List.mem_append.mp hb with h | h
      · rw [List.eq_of_mem_replicate h]; omega
      · exact hv b h
    obtain ⟨hval, hvalid, hlen⟩ := FromBeBytes_spec_full hpl hnw hpv
    rw [bytesValBE_zero_pad] at hval
    exact ⟨hval, hvalid, hlen⟩

/-- Generic big-endian byte round trip. -/
theorem fromBe_toBe {nw : Nat} {a : List Nat} (ha : validWords a) (hl : a.length = nw) :
    FromBeBytes nw (ToBeBytes nw a) = a := by
  obtain ⟨hval, hvalid, hlen⟩ :=
    @FromBeBytes_spec nw (ToBeBytes nw a) (le_of_eq (ToBeBytes_length hl)) (ToBeBytes_valid hl)
  apply wordsVal_inj hvalid ha (by rw [hlen, hl])
  rw [hval, bytesValBE_ToBeBytes ha hl]

/-- Claim C5 (confirmed).  On both widths the export/import pairs
round-trip: `FromLimbs (ToLimbs a) = a`, `FromLeBytes (ToLeBytes a) = a`
and `FromBeBytes (ToBeBytes a) = a` for every value `a`. -/
theorem roundtrip_export_import (a : List Nat) :
    (a.length = 8 → validWords a →
      FromLimbs 8 (ToLimbs a) = a ∧ FromLeBytes 8 (ToLeBytes a) = a ∧
      FromBeBytes 8 (ToBeBytes 8 a) = a) ∧
    (a.length = 16 → validWords a →
      FromLimbs 16 (ToLimbs a) = a ∧ FromLeBytes 16 (ToLeBytes a) = a ∧
      FromBeBytes 16 (ToBeBytes 16 a) = a) := by
  constructor
  · intro hl ha
    exact ⟨fromLimbs_toLimbs hl, fromLe_toLe ha hl, fromBe_toBe ha hl⟩
  · intro hl ha
    exact ⟨fromLimbs_toLimbs hl, fromLe_toLe ha hl, fromBe_toBe ha hl⟩

/-- Witness for C5 at the concrete value `New 8 7`. -/
theorem roundtrip_export_import_witness :
    FromLeBytes 8 (ToLeBytes (New 8 7)) = New 8 7 ∧
    FromBeBytes 8 (ToBeBytes 8 (New 8 7)) = New 8 7 :=
  ⟨((roundtrip_export_import (New 8 7)).1 rfl (by decide)).2.1,
   ((roundtrip_export_import (New 8 7)).1 rfl (by decide)).2.2⟩

theorem FromBeBytes_take (nw : Nat) (data : List Nat) :
    FromBeBytes nw data = FromBeBytes nw (data.take (8 * nw)) := by
  unfold FromBeBytes
  rw [List.take_take, Nat.min_self]

/-- Claim C7 (confirmed).  On both widths, `FromBeBytes` right-aligns its
input: for input not longer than `N * 8` bytes the parsed value is exactly
the big-endian value of the bytes (so short input is zero-padded on the
high-order end), and longer input is truncated to its first `N * 8`
bytes. -/
theorem frombe_right_aligned (data : List Nat) :
    (validBytes data → data.length ≤ 64 →
      wordsVal (FromBeBytes 8 data) = bytesValBE data) ∧
    FromBeBytes 8 data = FromBeBytes 8 (data.take 64) ∧
    (validBytes data → data.length ≤ 128 →
      wordsVal (FromBeBytes 16 data) = bytesValBE data) ∧
    FromBeBytes 16 data = FromBeBytes 16 (data.take 128) := by
  refine ⟨?_, ?_, ?_, ?_⟩
  · intro hv hdl
    exact (@FromBeBytes_spec 8 data (by omega) hv).1
  · exact FromBeBytes_take 8 data
  · intro hv hdl
    exact (@FromBeBytes_spec 16 data (by omega) hv).1
  · exact FromBeBytes_take 16 data

/-- Witness for C7: parsing the two bytes `[1, 2]` big-endian on the
512-bit width yields the value `258`. -/
theorem frombe_right_aligned_witness :
    wordsVal (FromBeBytes 8 [1, 2]) = bytesValBE [1, 2] :=
  (frombe_right_aligned [1, 2]).1 (by decide) (by decide)

/-! ### Claim C6: decimal string rendering -/

theorem shl32_mod {x : Nat} (hx : x < 2 ^ 32) : (x <<< 32) % 2 ^ 64 = x * 2 ^ 32 := by
  rw [Nat.shiftLeft_eq]
  exact Nat.mod_eq_of_lt (by nlinarith)

theorem shr32 (w : Nat) : w >>> 32 = w / 2 ^ 32 := Nat.shiftRight_eq_div_pow w 32

theorem lor_hi_lo (a b : Nat) (hb : b < 2 ^ 32) : a * 2 ^ 32 ||| b = 2 ^ 32 * a + b := by
  rw [mul_comm]
  exact (Nat.mul_add_lt_is_or hb a).symm

theorem and_lo (w : Nat) : w &&& 0xFFFFFFFF = w % 2 ^ 32 := by
  have h : (0xFFFFFFFF : Nat) = 2 ^ 32 - 1 := by norm_num
  rw [h, Nat.and_pow_two_sub_one_eq_mod]

theorem and_hi {w : Nat} (hw : w < 2 ^ 64) :
    w &&& 0xFFFFFFFF00000000 = (w >>> 32) <<< 32 := by
  have h1 : (0xFFFFFFFF00000000 : Nat) = (2 ^ 32 - 1) <<< 32 := by decide
  apply Nat.eq_of_testBit_eq
  intro i
  rw [h1]
  simp only [Nat.testBit_and, Nat.testBit_shiftLeft, Nat.testBit_two_pow_sub_one,
    Nat.testBit_shiftRight]
  by_cases h32 : 32 ≤ i
  · by_cases h64 : i < 64
    · have he : 32 + (i - 32) = i := by omega
      simp [h32, he, show i - 32 < 32 from by omega]
    · have hwi : w.testBit i = false := Nat.testBit_lt_two_pow (by
        calc w < 2 ^ 64 := hw
          _ ≤ 2 ^ i := Nat.pow_le_pow_right (by norm_num) (by omega))
      have hwi2 : w.testBit (32 + (i - 32)) = false := by
        rw [show 32 + (i - 32) = i from by omega]
        exact hwi
      simp [hwi, hwi2, show ¬ (i - 32 < 32) from by omega]
  · simp [h32]

theorem divBySmallWord_spec (d r w : Nat) (hd : 0 < d) (hd32 : d ≤ 2 ^ 32)
    (hr : r < d) (hw : w < 2 ^ 64) :
    (divBySmallWord d r w).1 * d + (divBySmallWord d r w).2 = 2 ^ 64 * r + w ∧
    (divBySmallWord d r w).1 < 2 ^ 64 ∧ (divBySmallWord d r w).2 < d := by
  have hwdiv : w / 2 ^ 32 < 2 ^ 32 := by omega
  have hwmod : w % 2 ^ 32 < 2 ^ 32 := Nat.mod_lt _ (by positivity)
  unfold divBySmallWord
  simp only []
  rw [shl32_mod (lt_of_lt_of_le hr hd32), shr32,
    lor_hi_lo r (w / 2 ^ 32) hwdiv]
  set D1 := 2 ^ 32 * r + w / 2 ^ 32 with hD1
  clear_value D1
  have hD1lt : D1 < d * 2 ^ 32 := by
    calc D1 < 2 ^ 32 * r + 2 ^ 32 := by omega
      _ = 2 ^ 32 * (r + 1) := by ring
      _ ≤ 2 ^ 32 * d := Nat.mul_le_mul_left _ hr
      _ = d * 2 ^ 32 := mul_comm _ _
  have hq1 : D1 / d < 2 ^ 32 := Nat.div_lt_of_lt_mul hD1lt
  have hr1 : D1 % d < d := Nat.mod_lt _ hd
  rw [shl32_mod hq1, and_lo w, Nat.lor_comm (w % 2 ^ 32), lor_hi_lo (D1 / d) (w % 2 ^ 32) hwmod]
  set w1 := 2 ^ 32 * (D1 / d) + w % 2 ^ 32 with hw1
  clear_value w1
  have hw1lt : w1 < 2 ^ 64 := by
    rw [hw1]
    omega
  have e6 : w1 &&& 0xFFFFFFFF = w % 2 ^ 32 := by
    rw [and_lo, hw1, Nat.mul_add_mod, Nat.mod_eq_of_lt hwmod]
  have e7 : w1 &&& 0xFFFFFFFF00000000 = (D1 / d) * 2 ^ 32 := by
    rw [and_hi hw1lt, shr32, Nat.shiftLeft_eq, hw1,
      Nat.mul_add_div (by positivity), Nat.div_eq_of_lt hwmod]
    ring
  rw [e6, e7, shl32_mod (lt_of_lt_of_le hr1 hd32), lor_hi_lo (D1 % d) (w % 2 ^ 32) hwmod]
  set D2 := 2 ^ 32 * (D1 % d) + w % 2 ^ 32 with hD2
  clear_value D2
  have hD2lt : D2 < d * 2 ^ 32 := by
    calc D2 < 2 ^ 32 * (D1 % d) + 2 ^ 32 := by omega
      _ = 2 ^ 32 * (D1 % d + 1) := by ring
      _ ≤ 2 ^ 32 * d := Nat.mul_le_mul_left _ hr1
      _ = d * 2 ^ 32 := mul_comm _ _
  have hq2 : D2 / d < 2 ^ 32 := Nat.div_lt_of_lt_mul hD2lt
  rw [lor_hi_lo (D1 / d) (D2 / d) hq2]
  refine ⟨?_, by omega, Nat.mod_lt _ hd⟩
  have hsq1 := Nat.div_add_mod D1 d
  have hsq2 := Nat.div_add_mod D2 d
  have hsw := Nat.div_add_mod w (2 ^ 32)
  zify at hsq1 hsq2 hsw hD1 hD2 ⊢
  linear_combination (2 ^ 32 : ℤ) * hsq1 + hsq2 + hsw + (2 ^ 32 : ℤ) * hD1 + hD2

theorem divBySmallLoop_spec : ∀ (ws : List Nat) (d : Nat), 0 < d → d ≤ 2 ^ 32 →
    validWords ws →
    wordsVal (divBySmallLoop d ws).1 = wordsVal ws / d ∧
    (divBySmallLoop d ws).2 = wordsVal ws % d ∧
    validWords (divBySmallLoop d ws).1 ∧
    (divBySmallLoop d ws).1.length = ws.length := by
  intro ws d hd hd32 hv
  induction ws with
  | nil =>
    refine ⟨by simp [divBySmallLoop, wordsVal], by simp [divBySmallLoop, wordsVal],
      by simp [divBySmallLoop, validWords], rfl⟩
  | cons w ws ih =>
    obtain ⟨ih1, ih2, ih3, ih4⟩ := ih (fun x hx => hv x (by simp [hx]))
    have hw : w < 2 ^ 64 := hv w (by simp)
    have hr : (divBySmallLoop d ws).2 < d := by rw [ih2]; exact Nat.mod_lt _ hd
    obtain ⟨hkey, hw2lt, hr2lt⟩ := divBySmallWord_spec d (divBySmallLoop d ws).2 w hd hd32 hr hw
    have hstep : divBySmallLoop d (w :: ws)
        = ((divBySmallWord d (divBySmallLoop d ws).2 w).1 :: (divBySmallLoop d ws).1,
           (divBySmallWord d (divBySmallLoop d ws).2 w).2) := rfl
    rw [hstep, ih2]
    rw [ih2] at hkey hw2lt hr2lt
    have hvd := Nat.div_add_mod (wordsVal ws) d
    have key : wordsVal (w :: ws)
        = d * ((divBySmallWord d (wordsVal ws % d) w).1 + 2 ^ 64 * (wordsVal ws / d))
          + (divBySmallWord d (wordsVal ws % d) w).2 := by
      rw [wordsVal_cons]
      zify at hkey hvd ⊢
      linear_combination (-(2 ^ 64 : ℤ)) * hvd - hkey
    refine ⟨?_, ?_, ?_, by simp [ih4]⟩
    · rw [wordsVal_cons, ih1, key, Nat.mul_add_div hd, Nat.div_eq_of_lt hr2lt, Nat.add_zero]
    · rw [key, Nat.mul_add_mod, Nat.mod_eq_of_lt hr2lt]
    · intro x hx
      rcases List.mem_cons.mp hx with h | h
      · rw [h]; exact hw2lt
      · exact ih3 x h

theorem isZero_iff_val {nw : Nat} {ws : List Nat} (hv : validWords ws) (hl : ws.length = nw) :
    IsZero nw ws = true ↔ wordsVal ws = 0 := by
  rw [IsZero_iff]
  constructor
  · intro h; rw [h, wordsVal_replicate_zero]
  · intro h
    exact wordsVal_inj hv (validWords_replicate_zero nw) (by simp [hl])
      (by rw [h, wordsVal_replicate_zero])

theorem stringDigitsLoop_spec : ∀ (fuel nw : Nat) (ws : List Nat), validWords ws →
    ws.length = nw → wordsVal ws < 10 ^ fuel →
    stringDigitsLoop nw fuel ws
      = (Nat.digits 10 (wordsVal ws)).map fun dg => Char.ofNat (48 + dg) := by
  intro fuel
  induction fuel with
  | zero =>
    intro nw ws hv hl hlt
    have h0 : wordsVal ws = 0 := by simpa using hlt
    simp [stringDigitsLoop, h0, Nat.digits_zero]
  | succ fuel ih =>
    intro nw ws hv hl hlt
    by_cases hz : IsZero nw ws
    · have h0 : wordsVal ws = 0 := (isZero_iff_val hv hl).mp hz
      simp [stringDigitsLoop, hz, h0, Nat.digits_zero]
    · have h0 : wordsVal ws ≠ 0 := fun h => hz ((isZero_iff_val hv hl).mpr h)
      obtain ⟨s1, s2, s3, s4⟩ := divBySmallLoop_spec ws 10 (by norm_num) (by norm_num) hv
      have hstep : stringDigitsLoop nw (fuel + 1) ws
          = Char.ofNat (48 + (divBySmallLoop 10 ws).2)
            :: stringDigitsLoop nw fuel (divBySmallLoop 10 ws).1 := by
        simp [stringDigitsLoop, hz]
      have hlt2 : wordsVal (divBySmallLoop 10 ws).1 < 10 ^ fuel := by
        rw [s1]
        have hm : wordsVal ws < 10 * 10 ^ fuel := by
          calc wordsVal ws < 10 ^ (fuel + 1) := hlt
            _ = 10 * 10 ^ fuel := by ring
        exact Nat.div_lt_of_lt_mul hm
      rw [hstep, s2, ih nw (divBySmallLoop 10 ws).1 s3 (s4.trans hl) hlt2, s1,
        Nat.digits_def' (by norm_num : (1 : ℕ) < 10) (Nat.pos_of_ne_zero h0), List.map_cons]

set_option maxRecDepth 100000 in
/-- Claim C6 (confirmed).  The decimal rendering of an 8-word value is "0"
for zero and otherwise exactly the base-10 digits of its value (most
significant first, no sign, no leading zero — `Nat.digits` produces the
canonical leading-zero-free digit list), the digits being collected by the
internal small-divisor division `divBySmall 10`; in particular the spec's
fixtures `New(0) = "0"`, `New(1) = "1"` and
`New(2^64-1) = "18446744073709551615"` hold. -/
theorem decimal_string_correct (ws : List Nat) :
    (ws.length = 8 → validWords ws →
      ToDecString 8 ws = if wordsVal ws = 0 then "0"
        else String.mk
          (((Nat.digits 10 (wordsVal ws)).map fun dg => Char.ofNat (48 + dg)).reverse)) ∧
    ToDecString 8 (New 8 (2 ^ 64 - 1)) = "18446744073709551615" ∧
    ToDecString 8 (New 8 0) = "0" ∧
    ToDecString 8 (New 8 1) = "1" := by
  refine ⟨?_, by decide, by decide, by decide⟩
  intro hl hv
  by_cases hz : IsZero 8 ws
  · rw [if_pos ((isZero_iff_val hv hl).mp hz)]
    unfold ToDecString
    rw [if_pos hz]
  · have h0 : wordsVal ws ≠ 0 := fun h => hz ((isZero_iff_val hv hl).mpr h)
    rw [if_neg h0]
    unfold ToDecString
    rw [if_neg hz]
    have hb : wordsVal ws < 10 ^ (20 * 8) := by
      have hws := wordsVal_lt hv
      rw [hl] at hws
      calc wordsVal ws < 2 ^ (64 * 8) := hws
        _ < 10 ^ (20 * 8) := by decide
    rw [stringDigitsLoop_spec (20 * 8) 8 ws hv hl hb]

/-- Witness for C6 applying the general statement at `New 8 5`. -/
theorem decimal_string_correct_witness : ToDecString 8 (New 8 5) = "5" := by
  have h := (decimal_string_correct (New 8 5)).1 rfl (by decide)
  rw [h]
  have hv5 : wordsVal (New 8 5) = 5 := by
    simp [New, wordsVal_cons, wordsVal_nil, wordsVal_replicate_zero]
  rw [hv5, if_neg (by norm_num),
    Nat.digits_def' (by norm_num : (1 : ℕ) < 10) (by norm_num : (0 : ℕ) < 5),
    show (5 : ℕ) / 10 = 0 from by norm_num, Nat.digits_zero]
  decide

/-! ### Claim C8: shift laws -/

theorem addMulMod (a B X M : Nat) (ha : a < B) :
    (a + B * X) % (B * M) = a + B * (X % M) := by
  by_cases hM : M = 0
  · subst hM
    simp [Nat.mod_zero]
  · have hMpos : 0 < M := Nat.pos_of_ne_zero hM
    have hX := Nat.div_add_mod X M
    have hlt : a + B * (X % M) < B * M := by
      have h2 : X % M + 1 ≤ M := Nat.mod_lt _ hMpos
      calc a + B * (X % M) < B + B * (X % M) := by omega
        _ = B * (X % M + 1) := by ring
        _ ≤ B * M := Nat.mul_le_mul_left _ h2
    have key : a + B * X = a + B * (X % M) + (X / M) * (B * M) := by
      conv_lhs => rw [← hX]
      ring
    rw [key, Nat.add_mul_mod_self_right, Nat.mod_eq_of_lt hlt]

theorem lor_mul_pow (p a c : Nat) (hc : c < 2 ^ p) : a * 2 ^ p ||| c = 2 ^ p * a + c := by
  rw [mul_comm]
  exact (Nat.mul_add_lt_is_or hc a).symm

theorem wordsVal_take : ∀ (ws : List Nat) (k : Nat), validWords ws →
    wordsVal (ws.take k) = wordsVal ws % 2 ^ (64 * k) := by
  intro ws
  induction ws with
  | nil => intro k _; simp [wordsVal]
  | cons w ws ih =>
    intro k hv
    cases k with
    | zero => simp [wordsVal, Nat.mod_one]
    | succ k =>
      have hw : w < 2 ^ 64 := hv w (by simp)
      rw [List.take_succ_cons, wordsVal_cons, wordsVal_cons,
        ih k (fun x hx => hv x (by simp [hx]))]
      have hp : (2 : Nat) ^ (64 * (k + 1)) = 2 ^ 64 * 2 ^ (64 * k) := by
        rw [← pow_add]
        ring_nf
      rw [hp, addMulMod _ _ _ _ hw]

theorem wordsVal_drop : ∀ (ws : List Nat) (k : Nat), validWords ws →
    wordsVal (ws.drop k) = wordsVal ws / 2 ^ (64 * k) := by
  intro ws
  induction ws with
  | nil => intro k _; simp [wordsVal]
  | cons w ws ih =>
    intro k hv
    cases k with
    | zero => simp [wordsVal]
    | succ k =>
      have hw : w < 2 ^ 64 := hv w (by simp)
      rw [List.drop_succ_cons, wordsVal_cons, ih k (fun x hx => hv x (by simp [hx]))]
      have hp : (2 : Nat) ^ (64 * (k + 1)) = 2 ^ 64 * 2 ^ (64 * k) := by
        rw [← pow_add]
        ring_nf
      rw [hp, ← Nat.div_div_eq_div_mul, Nat.add_mul_div_left _ _ (by positivity),
        Nat.div_eq_of_lt hw, Nat.zero_add]

theorem pow_split (b : Nat) (hb : b ≤ 64) : (2 : Nat) ^ (64 - b) * 2 ^ b = 2 ^ 64 := by
  rw [← pow_add]
  congr 1
  omega

theorem shlCarryLoop_spec : ∀ (ws : List Nat) (b c : Nat), 0 < b → b < 64 → c < 2 ^ b →
    validWords ws →
    wordsVal (shlCarryLoop b c ws) = (wordsVal ws * 2 ^ b + c) % 2 ^ (64 * ws.length) ∧
    validWords (shlCarryLoop b c ws) ∧ (shlCarryLoop b c ws).length = ws.length := by
  intro ws
  induction ws with
  | nil =>
    intro b c hb hb64 hc _
    refine ⟨?_, by simp [shlCarryLoop, validWords], rfl⟩
    simp [shlCarryLoop, wordsVal, Nat.mod_one]
  | cons w ws ih =>
    intro b c hb hb64 hc hv
    have hw : w < 2 ^ 64 := hv w (by simp)
    have hPQ : (2 : Nat) ^ (64 - b) * 2 ^ b = 2 ^ 64 := pow_split b (by omega)
    have hcout : w >>> (64 - b) < 2 ^ b := by
      rw [Nat.shiftRight_eq_div_pow]
      apply Nat.div_lt_of_lt_mul
      rw [hPQ]
      exact hw
    obtain ⟨ih1, ih2, ih3⟩ := ih b (w >>> (64 - b)) hb hb64 hcout
      (fun x hx => hv x (by simp [hx]))
    have hstep : shlCarryLoop b c (w :: ws)
        = ((w <<< b) % 2 ^ 64 ||| c) :: shlCarryLoop b (w >>> (64 - b)) ws := rfl
    have hwmod : w % 2 ^ (64 - b) < 2 ^ (64 - b) := Nat.mod_lt _ (by positivity)
    have ehead : (w <<< b) % 2 ^ 64 ||| c = 2 ^ b * (w % 2 ^ (64 - b)) + c := by
      rw [Nat.shiftLeft_eq, ← hPQ, Nat.mul_mod_mul_right, lor_mul_pow b _ c hc]
    have hA : 2 ^ b * (w % 2 ^ (64 - b)) + c < 2 ^ 64 := by
      calc 2 ^ b * (w % 2 ^ (64 - b)) + c < 2 ^ b * (w % 2 ^ (64 - b)) + 2 ^ b := by omega
        _ = 2 ^ b * (w % 2 ^ (64 - b) + 1) := by ring
        _ ≤ 2 ^ b * 2 ^ (64 - b) := Nat.mul_le_mul_left _ hwmod
        _ = 2 ^ 64 := by rw [mul_comm]; exact hPQ
    have hsplit : (w + 2 ^ 64 * wordsVal ws) * 2 ^ b + c
        = (2 ^ b * (w % 2 ^ (64 - b)) + c)
          + 2 ^ 64 * (wordsVal ws * 2 ^ b + w >>> (64 - b)) := by
      have hwd := Nat.div_add_mod w (2 ^ (64 - b))
      rw [Nat.shiftRight_eq_div_pow]
      conv_lhs => rw [← hwd]
      rw [← hPQ]
      ring
    refine ⟨?_, ?_, by rw [hstep]; simp [ih3]⟩
    · rw [hstep, wordsVal_cons, ehead, ih1, List.length_cons]
      have hp : (2 : Nat) ^ (64 * (ws.length + 1)) = 2 ^ 64 * 2 ^ (64 * ws.length) := by
        rw [← pow_add]
        ring_nf
      rw [hp, wordsVal_cons, hsplit, addMulMod _ _ _ _ hA]
    · rw [hstep]
      intro x hx
      rcases List.mem_cons.mp hx with h | h
      · rw [h, ehead]; exact hA
      · exact ih2 x h

theorem shrCarryLoop_spec : ∀ (ws : List Nat) (b : Nat), 0 < b → b < 64 → validWords ws →
    wordsVal (shrCarryLoop b ws).1 = wordsVal ws / 2 ^ b ∧
    (shrCarryLoop b ws).2 = (wordsVal ws % 2 ^ b) * 2 ^ (64 - b) ∧
    validWords (shrCarryLoop b ws).1 ∧ (shrCarryLoop b ws).1.length = ws.length := by
  intro ws
  induction ws with
  | nil =>
    intro b hb hb64 _
    refine ⟨by simp [shrCarryLoop, wordsVal], by simp [shrCarryLoop, wordsVal],
      by simp [shrCarryLoop, validWords], rfl⟩
  | cons w ws ih =>
    intro b hb hb64 hv
    have hw : w < 2 ^ 64 := hv w (by simp)
    have hPQ : (2 : Nat) ^ (64 - b) * 2 ^ b = 2 ^ 64 := pow_split b (by omega)
    have hPQ2 : (2 : Nat) ^ b * 2 ^ (64 - b) = 2 ^ 64 := by rw [mul_comm]; exact hPQ
    obtain ⟨ih1, ih2, ih3, ih4⟩ := ih b hb hb64 (fun x hx => hv x (by simp [hx]))
    have hstep : shrCarryLoop b (w :: ws)
        = ((w >>> b ||| (shrCarryLoop b ws).2) :: (shrCarryLoop b ws).1,
           (w <<< (64 - b)) % 2 ^ 64) := rfl
    have hwdb : w >>> b < 2 ^ (64 - b) := by
      rw [Nat.shiftRight_eq_div_pow]
      apply Nat.div_lt_of_lt_mul
      rw [mul_comm, hPQ]
      exact hw
    have ehead : w >>> b ||| (shrCarryLoop b ws).2
        = 2 ^ (64 - b) * (wordsVal ws % 2 ^ b) + w >>> b := by
      rw [ih2, Nat.lor_comm, lor_mul_pow (64 - b) _ _ hwdb]
    have hheadlt : 2 ^ (64 - b) * (wordsVal ws % 2 ^ b) + w >>> b < 2 ^ 64 := by
      have hm : wordsVal ws % 2 ^ b + 1 ≤ 2 ^ b := Nat.mod_lt _ (by positivity)
      calc 2 ^ (64 - b) * (wordsVal ws % 2 ^ b) + w >>> b
          < 2 ^ (64 - b) * (wordsVal ws % 2 ^ b) + 2 ^ (64 - b) := by omega
        _ = 2 ^ (64 - b) * (wordsVal ws % 2 ^ b + 1) := by ring
        _ ≤ 2 ^ (64 - b) * 2 ^ b := Nat.mul_le_mul_left _ hm
        _ = 2 ^ 64 := hPQ
    refine ⟨?_, ?_, ?_, by simp [hstep, ih4]⟩
    · rw [hstep]
      simp only [wordsVal_cons]
      rw [ehead, ih1]
      have hdiv : (w + 2 ^ 64 * wordsVal ws) / 2 ^ b
          = w / 2 ^ b + 2 ^ (64 - b) * wordsVal ws := by
        rw [← hPQ2, show (2 : Nat) ^ b * 2 ^ (64 - b) * wordsVal ws
            = 2 ^ b * (2 ^ (64 - b) * wordsVal ws) from by ring,
          Nat.add_mul_div_left _ _ (by positivity : (0 : Nat) < 2 ^ b)]
      rw [hdiv]
      have hvd := Nat.div_add_mod (wordsVal ws) (2 ^ b)
      have hexp : 2 ^ (64 - b) * wordsVal ws
          = 2 ^ 64 * (wordsVal ws / 2 ^ b) + 2 ^ (64 - b) * (wordsVal ws % 2 ^ b) := by
        conv_lhs => rw [← hvd]
        rw [← hPQ2]
        ring
      rw [Nat.shiftRight_eq_div_pow, hexp]
      ring
    · rw [hstep]
      simp only [wordsVal_cons]
      rw [Nat.shiftLeft_eq, ← hPQ2, Nat.mul_mod_mul_right]
      have : (w + 2 ^ b * 2 ^ (64 - b) * wordsVal ws) % 2 ^ b = w % 2 ^ b := by
        rw [show (2 : Nat) ^ b * 2 ^ (64 - b) * wordsVal ws
            = 2 ^ b * (2 ^ (64 - b) * wordsVal ws) from by ring]
        exact Nat.add_mul_mod_self_left w (2 ^ b) _
      rw [this]
    · rw [hstep]
      intro x hx
      rcases List.mem_cons.mp hx with h | h
      · rw [h, ehead]; exact hheadlt
      · exact ih3 x h

theorem validWords_take {ws : List Nat} (hv : validWords ws) (k : Nat) :
    validWords (ws.take k) := fun x hx => hv x (List.mem_of_mem_take hx)

theorem validWords_drop {ws : List Nat} (hv : validWords ws) (k : Nat) :
    validWords (ws.drop k) := fun x hx => hv x (List.mem_of_mem_drop hx)

theorem shl_ws1_spec {nw : Nat} {ws : List Nat} (hv : validWords ws) (hl : ws.length = nw)
    {s : Nat} (hs : s < nw) :
    wordsVal (if 0 < s then List.replicate s 0 ++ ws.take (nw - s) else ws)
      = wordsVal ws * 2 ^ (64 * s) % 2 ^ (64 * nw) ∧
    validWords (if 0 < s then List.replicate s 0 ++ ws.take (nw - s) else ws) ∧
    (if 0 < s then List.replicate s 0 ++ ws.take (nw - s) else ws).length = nw := by
  have hsplitp : (2 : Nat) ^ (64 * nw) = 2 ^ (64 * (nw - s)) * 2 ^ (64 * s) := by
    rw [← pow_add]
    congr 1
    omega
  by_cases hs0 : 0 < s
  · rw [if_pos hs0]
    refine ⟨?_, ?_, ?_⟩
    · rw [wordsVal_append, wordsVal_replicate_zero, List.length_replicate,
        wordsVal_take ws (nw - s) hv, hsplitp, Nat.mul_mod_mul_right, Nat.zero_add]
      ring
    · intro x hx
      rcases List.mem_append.mp hx with h | h
      · rw [List.eq_of_mem_replicate h]; positivity
      · exact hv x (List.mem_of_mem_take h)
    · simp only [List.length_append, List.length_replicate, List.length_take, hl]
      omega
  · rw [if_neg hs0]
    have hs0' : s = 0 := by omega
    subst hs0'
    refine ⟨?_, hv, hl⟩
    rw [Nat.mul_zero, pow_zero, Nat.mul_one,
      Nat.mod_eq_of_lt (by rw [← hl]; exact wordsVal_lt hv)]

theorem shr_ws1_spec {nw : Nat} {ws : List Nat} (hv : validWords ws) (hl : ws.length = nw)
    {s : Nat} (hs : s < nw) :
    wordsVal (if 0 < s then ws.drop s ++ List.replicate s 0 else ws)
      = wordsVal ws / 2 ^ (64 * s) ∧
    validWords (if 0 < s then ws.drop s ++ List.replicate s 0 else ws) ∧
    (if 0 < s then ws.drop s ++ List.replicate s 0 else ws).length = nw := by
  by_cases hs0 : 0 < s
  · rw [if_pos hs0]
    refine ⟨?_, ?_, ?_⟩
    · rw [wordsVal_append, wordsVal_replicate_zero, wordsVal_drop ws s hv]
      ring
    · intro x hx
      rcases List.mem_append.mp hx with h | h
      · exact hv x (List.mem_of_mem_drop h)
      · rw [List.eq_of_mem_replicate h]; positivity
    · simp only [List.length_append, List.length_replicate, List.length_drop, hl]
      omega
  · rw [if_neg hs0]
    have hs0' : s = 0 := by omega
    subst hs0'
    refine ⟨?_, hv, hl⟩
    rw [Nat.mul_zero, pow_zero, Nat.div_one]

theorem mod_mul_mod_helper (X b M : Nat) : (X % M) * b % M = X * b % M := by
  conv_lhs => rw [Nat.mul_mod, Nat.mod_mod_of_dvd X dvd_rfl, ← Nat.mul_mod]

theorem shl_assemble (X s b nw : Nat) (hs : s < nw) :
    X * 2 ^ (64 * s) % 2 ^ (64 * nw) % 2 ^ (64 * s)
      + 2 ^ (64 * s)
        * (X * 2 ^ (64 * s) % 2 ^ (64 * nw) / 2 ^ (64 * s) * 2 ^ b % 2 ^ (64 * (nw - s)))
      = X * 2 ^ (64 * s + b) % 2 ^ (64 * nw) := by
  have hMsplit : (2 : Nat) ^ (64 * nw) = 2 ^ (64 * s) * 2 ^ (64 * (nw - s)) := by
    rw [← pow_add]
    congr 1
    omega
  have h1 : X * 2 ^ (64 * s) % 2 ^ (64 * nw)
      = 2 ^ (64 * s) * (X % 2 ^ (64 * (nw - s))) := by
    rw [hMsplit, mul_comm X, Nat.mul_mod_mul_left]
  rw [h1, Nat.mul_mod_right, Nat.mul_div_cancel_left _ (by positivity : (0:Nat) < 2 ^ (64 * s)),
    Nat.zero_add, mod_mul_mod_helper, ← Nat.mul_mod_mul_left, ← hMsplit]
  congr 1
  rw [pow_add]
  ring

theorem ShlInPlace_spec {nw : Nat} {ws : List Nat} (hv : validWords ws)
    (hl : ws.length = nw) (k : Nat) :
    wordsVal (ShlInPlace nw ws k) = wordsVal ws * 2 ^ k % 2 ^ (64 * nw) ∧
    validWords (ShlInPlace nw ws k) ∧ (ShlInPlace nw ws k).length = nw := by
  by_cases hk0 : k = 0
  · subst hk0
    have he : ShlInPlace nw ws 0 = ws := by unfold ShlInPlace; rw [if_pos rfl]
    rw [he, pow_zero, Nat.mul_one, Nat.mod_eq_of_lt (by rw [← hl]; exact wordsVal_lt hv)]
    exact ⟨rfl, hv, hl⟩
  · by_cases hbig : 64 * nw ≤ k
    · have he : ShlInPlace nw ws k = List.replicate nw 0 := by
        unfold ShlInPlace
        rw [if_neg hk0, if_pos hbig]
      rw [he]
      refine ⟨?_, validWords_replicate_zero nw, by simp⟩
      rw [wordsVal_replicate_zero]
      have h2 : (2 : Nat) ^ k = 2 ^ (k - 64 * nw) * 2 ^ (64 * nw) := by
        rw [← pow_add]
        congr 1
        omega
      rw [h2, show wordsVal ws * (2 ^ (k - 64 * nw) * 2 ^ (64 * nw))
          = wordsVal ws * 2 ^ (k - 64 * nw) * 2 ^ (64 * nw) from by ring, Nat.mul_mod_left]
    · push_neg at hbig
      have hs : k / 64 < nw := by omega
      have hb64 : k % 64 < 64 := Nat.mod_lt _ (by norm_num)
      have hkdm : 64 * (k / 64) + k % 64 = k := Nat.div_add_mod k 64
      obtain ⟨w1val, w1valid, w1len⟩ := shl_ws1_spec hv hl hs
      have hstep : ShlInPlace nw ws k =
          if 0 < k % 64 then
            (if 0 < k / 64 then List.replicate (k / 64) 0 ++ ws.take (nw - k / 64) else ws).take
                (k / 64)
              ++ shlCarryLoop (k % 64) 0
                ((if 0 < k / 64 then
                  List.replicate (k / 64) 0 ++ ws.take (nw - k / 64) else ws).drop (k / 64))
          else if 0 < k / 64 then List.replicate (k / 64) 0 ++ ws.take (nw - k / 64) else ws := by
        unfold ShlInPlace
        rw [if_neg hk0, if_neg (by omega)]
      rw [hstep]
      by_cases hb : 0 < k % 64
      · rw [if_pos hb]
        obtain ⟨c1, c2, c3⟩ := shlCarryLoop_spec _ (k % 64) 0 hb hb64 (by positivity)
          (validWords_drop w1valid (k / 64))
        have hdl : ((if 0 < k / 64 then
            List.replicate (k / 64) 0 ++ ws.take (nw - k / 64) else ws).drop (k / 64)).length
            = nw - k / 64 := by
          rw [List.length_drop, w1len]
        have htl : ((if 0 < k / 64 then
            List.replicate (k / 64) 0 ++ ws.take (nw - k / 64) else ws).take (k / 64)).length
            = k / 64 := by
          rw [List.length_take, w1len]
          omega
        refine ⟨?_, ?_, ?_⟩
        · rw [wordsVal_append, c1, htl, hdl, Nat.add_zero,
            wordsVal_take _ _ w1valid, wordsVal_drop _ _ w1valid, w1val, shl_assemble _ _ _ _ hs,
            hkdm]
        · intro x hx
          rcases List.mem_append.mp hx with h | h
          · exact w1valid x (List.mem_of_mem_take h)
          · exact c2 x h
        · rw [List.length_append, htl, c3, hdl]
          omega
      · rw [if_neg hb]
        have hb0 : k % 64 = 0 := by omega
        have hks : 64 * (k / 64) = k := by omega
        rw [hks] at w1val
        exact ⟨w1val, w1valid, w1len⟩

theorem ShrInPlace_spec {nw : Nat} {ws : List Nat} (hv : validWords ws)
    (hl : ws.length = nw) (k : Nat) :
    wordsVal (ShrInPlace nw ws k) = wordsVal ws / 2 ^ k ∧
    validWords (ShrInPlace nw ws k) ∧ (ShrInPlace nw ws k).length = nw := by
  by_cases hk0 : k = 0
  · subst hk0
    have he : ShrInPlace nw ws 0 = ws := by unfold ShrInPlace; rw [if_pos rfl]
    rw [he, pow_zero, Nat.div_one]
    exact ⟨rfl, hv, hl⟩
  · by_cases hbig : 64 * nw ≤ k
    · have he : ShrInPlace nw ws k = List.replicate nw 0 := by
        unfold ShrInPlace
        rw [if_neg hk0, if_pos hbig]
      rw [he]
      refine ⟨?_, validWords_replicate_zero nw, by simp⟩
      rw [wordsVal_replicate_zero, Nat.div_eq_of_lt (by
        calc wordsVal ws < 2 ^ (64 * nw) := by rw [← hl]; exact wordsVal_lt hv
          _ ≤ 2 ^ k := Nat.pow_le_pow_right (by norm_num) hbig)]
    · push_neg at hbig
      have hs : k / 64 < nw := by omega
      have hb64 : k % 64 < 64 := Nat.mod_lt _ (by norm_num)
      have hkdm : 64 * (k / 64) + k % 64 = k := Nat.div_add_mod k 64
      obtain ⟨w1val, w1valid, w1len⟩ := shr_ws1_spec hv hl hs
      have hMsplit : (2 : Nat) ^ (64 * nw) = 2 ^ (64 * (k / 64)) * 2 ^ (64 * (nw - k / 64)) := by
        rw [← pow_add]
        congr 1
        omega
      have hV1lt : wordsVal (if 0 < k / 64 then ws.drop (k / 64) ++ List.replicate (k / 64) 0
          else ws) < 2 ^ (64 * (nw - k / 64)) := by
        rw [w1val]
        apply Nat.div_lt_of_lt_mul
        rw [← hMsplit, ← hl]
        exact wordsVal_lt hv
      have hstep : ShrInPlace nw ws k =
          if 0 < k % 64 then
            (shrCarryLoop (k % 64) ((if 0 < k / 64 then
                ws.drop (k / 64) ++ List.replicate (k / 64) 0 else ws).take (nw - k / 64))).1
              ++ (if 0 < k / 64 then
                ws.drop (k / 64) ++ List.replicate (k / 64) 0 else ws).drop (nw - k / 64)
          else if 0 < k / 64 then ws.drop (k / 64) ++ List.replicate (k / 64) 0 else ws := by
        unfold ShrInPlace
        rw [if_neg hk0, if_neg (by omega)]
      rw [hstep]
      by_cases hb : 0 < k % 64
      · rw [if_pos hb]
        obtain ⟨c1, c2, c3, c4⟩ := shrCarryLoop_spec _ (k % 64) hb hb64
          (validWords_take w1valid (nw - k / 64))
        have htl : ((if 0 < k / 64 then ws.drop (k / 64) ++ List.replicate (k / 64) 0
            else ws).take (nw - k / 64)).length = nw - k / 64 := by
          rw [List.length_take, w1len]
          omega
        have htv : wordsVal ((if 0 < k / 64 then ws.drop (k / 64) ++ List.replicate (k / 64) 0
            else ws).take (nw - k / 64))
            = wordsVal (if 0 < k / 64 then ws.drop (k / 64) ++ List.replicate (k / 64) 0
              else ws) := by
          rw [wordsVal_take _ _ w1valid, Nat.mod_eq_of_lt hV1lt]
        refine ⟨?_, ?_, ?_⟩
        · rw [wordsVal_append, c1, c4, htl, htv, wordsVal_drop _ _ w1valid,
            Nat.div_eq_of_lt hV1lt, Nat.mul_zero, Nat.add_zero, w1val,
            Nat.div_div_eq_div_mul, ← pow_add, hkdm]
        · intro x hx
          rcases List.mem_append.mp hx with h | h
          · exact c3 x h
          · exact w1valid x (List.mem_of_mem_drop h)
        · rw [List.length_append, c4, htl, List.length_drop, w1len]
          omega
      · rw [if_neg hb]
        have hks : 64 * (k / 64) = k := by omega
        rw [hks] at w1val
        exact ⟨w1val, w1valid, w1len⟩

theorem landDigit (p x y X Y : Nat) (hx : x < 2 ^ p) (hy : y < 2 ^ p) :
    (x + 2 ^ p * X) &&& (y + 2 ^ p * Y) = (x &&& y) + 2 ^ p * (X &&& Y) := by
  have hxy : (x &&& y) < 2 ^ p := Nat.and_lt_two_pow x hy
  apply Nat.eq_of_testBit_eq
  intro i
  rw [show x + 2 ^ p * X = 2 ^ p * X + x from by ring,
    show y + 2 ^ p * Y = 2 ^ p * Y + y from by ring,
    show (x &&& y) + 2 ^ p * (X &&& Y) = 2 ^ p * (X &&& Y) + (x &&& y) from by ring,
    Nat.testBit_and, Nat.testBit_mul_pow_two_add _ hx i, Nat.testBit_mul_pow_two_add _ hy i,
    Nat.testBit_mul_pow_two_add _ hxy i]
  by_cases hi : i < p
  · simp [hi, Nat.testBit_and]
  · simp [hi, Nat.testBit_and]

theorem And_spec : ∀ (a b : List Nat), a.length = b.length → validWords a → validWords b →
    wordsVal (And a b) = wordsVal a &&& wordsVal b ∧ validWords (And a b) ∧
    (And a b).length = a.length := by
  intro a
  induction a with
  | nil =>
    intro b hl _ _
    cases b with
    | nil =>
      refine ⟨?_, by simp [And, validWords], rfl⟩
      simp [And, wordsVal]
    | cons y ys => simp at hl
  | cons x xs ih =>
    intro b hl ha hb
    cases b with
    | nil => simp at hl
    | cons y ys =>
      obtain ⟨i1, i2, i3⟩ := ih ys (by simpa using hl)
        (fun w hw => ha w (by simp [hw])) (fun w hw => hb w (by simp [hw]))
      have hx : x < 2 ^ 64 := ha x (by simp)
      have hy : y < 2 ^ 64 := hb y (by simp)
      have hstep : And (x :: xs) (y :: ys) = (x &&& y) :: And xs ys := rfl
      refine ⟨?_, ?_, by rw [hstep]; simp [i3]⟩
      · rw [hstep, wordsVal_cons, wordsVal_cons, wordsVal_cons, i1,
          landDigit 64 x y _ _ hx hy]
      · rw [hstep]
        intro w hw
        rcases List.mem_cons.mp hw with h | h
        · rw [h]; exact Nat.and_lt_two_pow x hy
        · exact i2 w h

theorem OneW_val {nw : Nat} : wordsVal (OneW nw) = 1 := by
  unfold OneW
  rw [wordsVal_cons, wordsVal_replicate_zero]
  omega

theorem OneW_valid (nw : Nat) : validWords (OneW nw) := by
  intro w hw
  rcases List.mem_cons.mp hw with h | h
  · rw [h]; norm_num
  · rw [List.eq_of_mem_replicate h]; positivity

theorem OneW_length {nw : Nat} (h : 0 < nw) : (OneW nw).length = nw := by
  unfold OneW
  simp only [List.length_cons, List.length_replicate]
  omega

theorem Shl_eq_inPlace (nw : Nat) (ws : List Nat) (k : Nat) :
    Shl nw ws k = ShlInPlace nw ws k := rfl

theorem Shr_eq_inPlace (nw : Nat) (ws : List Nat) (k : Nat) :
    Shr nw ws k = ShrInPlace nw ws k := rfl

theorem shr_shl_masked {nw : Nat} (hnw : 0 < nw) {a : List Nat} (hv : validWords a)
    (hl : a.length = nw) {k : Nat} (hk : k < 64 * nw) :
    Shr nw (Shl nw a k) k = And a (Sub (Shl nw (OneW nw) (64 * nw - k)) (OneW nw)) := by
  rw [Shl_eq_inPlace, Shr_eq_inPlace, Shl_eq_inPlace]
  obtain ⟨s1, s2, s3⟩ := ShlInPlace_spec hv hl k
  obtain ⟨l1, l2, l3⟩ := ShrInPlace_spec s2 s3 k
  have hsplit : (2 : Nat) ^ (64 * nw) = 2 ^ k * 2 ^ (64 * nw - k) := by
    rw [← pow_add]
    congr 1
    omega
  have lhsval : wordsVal (ShrInPlace nw (ShlInPlace nw a k) k)
      = wordsVal a % 2 ^ (64 * nw - k) := by
    rw [l1, s1, hsplit, mul_comm (wordsVal a), Nat.mul_mod_mul_left,
      Nat.mul_div_cancel_left _ (by positivity : (0 : Nat) < 2 ^ k)]
  obtain ⟨m1, m2, m3⟩ := ShlInPlace_spec (OneW_valid nw) (OneW_length hnw) (64 * nw - k)
  rw [OneW_val, Nat.one_mul] at m1
  obtain ⟨subval, _⟩ := sub_val_general (ShlInPlace nw (OneW nw) (64 * nw - k)) (OneW nw)
    (by rw [m3, OneW_length hnw]) m2 (OneW_valid nw)
  rw [OneW_val, m3] at subval
  have maskval : wordsVal (Sub (ShlInPlace nw (OneW nw) (64 * nw - k)) (OneW nw))
      = 2 ^ (64 * nw - k) - 1 := by
    by_cases hk0 : k = 0
    · subst hk0
      simp only [Nat.sub_zero] at m1 subval ⊢
      rw [subval, m1, Nat.mod_self, Nat.zero_add,
        Nat.mod_eq_of_lt (Nat.sub_lt (by positivity) (by norm_num))]
    · have hexp : 64 * nw - k < 64 * nw := by omega
      have hmlt : (2 : Nat) ^ (64 * nw - k) < 2 ^ (64 * nw) :=
        Nat.pow_lt_pow_right (by norm_num) hexp
      rw [subval, m1, Nat.mod_eq_of_lt hmlt]
      have h1 : (0 : Nat) < 2 ^ (64 * nw - k) := by positivity
      have heq : 2 ^ (64 * nw - k) + 2 ^ (64 * nw) - 1
          = (2 ^ (64 * nw - k) - 1) + 2 ^ (64 * nw) := by omega
      rw [heq, Nat.add_mod_right, Nat.mod_eq_of_lt (by omega)]
  have hsubvalid : validWords (Sub (ShlInPlace nw (OneW nw) (64 * nw - k)) (OneW nw)) :=
    subLoop_valid _ _ _
  have hsublen : (Sub (ShlInPlace nw (OneW nw) (64 * nw - k)) (OneW nw)).length = nw := by
    unfold Sub
    rw [subLoop_length _ _ _ (by rw [m3, OneW_length hnw]), m3]
  obtain ⟨r1, r2, r3⟩ := And_spec a (Sub (ShlInPlace nw (OneW nw) (64 * nw - k)) (OneW nw))
    (by rw [hl, hsublen]) hv hsubvalid
  apply wordsVal_inj l2 r2 (by rw [l3, r3, hl])
  rw [lhsval, r1, maskval, Nat.and_pow_two_sub_one_eq_mod]

/-- Claim C8 (confirmed).  On both widths: shifting by 0 returns the value
unchanged; shifting left or right by at least the full bit width yields
the all-zero value (no error); and for `k` below the width,
`Shr (Shl a k) k` equals `a` with its top `k` bits cleared, i.e.
`And a (Sub (Shl one (width - k)) one)` computed by the code itself. -/
theorem shift_laws (a : List Nat) (k : Nat) :
    (a.length = 8 → validWords a →
      Shl 8 a 0 = a ∧
      (512 ≤ k → Shl 8 a k = ZeroW 8 ∧ Shr 8 a k = ZeroW 8) ∧
      (k < 512 → Shr 8 (Shl 8 a k) k
        = And a (Sub (Shl 8 (OneW 8) (512 - k)) (OneW 8)))) ∧
    (a.length = 16 → validWords a →
      Shl 16 a 0 = a ∧
      (1024 ≤ k → Shl 16 a k = ZeroW 16 ∧ Shr 16 a k = ZeroW 16) ∧
      (k < 1024 → Shr 16 (Shl 16 a k) k
        = And a (Sub (Shl 16 (OneW 16) (1024 - k)) (OneW 16)))) := by
  constructor
  · intro hl hv
    refine ⟨rfl, fun hk => ⟨?_, ?_⟩, fun hk => ?_⟩
    · show ShlInPlace 8 (Clone a) k = ZeroW 8
      unfold ShlInPlace Clone ZeroW
      rw [if_neg (by omega), if_pos (by omega)]
    · show ShrInPlace 8 (Clone a) k = ZeroW 8
      unfold ShrInPlace Clone ZeroW
      rw [if_neg (by omega), if_pos (by omega)]
    · have h512 : (512 : Nat) = 64 * 8 := by norm_num
      rw [h512] at hk ⊢
      exact shr_shl_masked (by norm_num) hv hl hk
  · intro hl hv
    refine ⟨rfl, fun hk => ⟨?_, ?_⟩, fun hk => ?_⟩
    · show ShlInPlace 16 (Clone a) k = ZeroW 16
      unfold ShlInPlace Clone ZeroW
      rw [if_neg (by omega), if_pos (by omega)]
    · show ShrInPlace 16 (Clone a) k = ZeroW 16
      unfold ShrInPlace Clone ZeroW
      rw [if_neg (by omega), if_pos (by omega)]
    · have h1024 : (1024 : Nat) = 64 * 16 := by norm_num
      rw [h1024] at hk ⊢
      exact shr_shl_masked (by norm_num) hv hl hk

/-- Witness for C8 at `a = New 8 3`, shifts 600 (beyond width) and 5. -/
theorem shift_laws_witness :
    Shl 8 (New 8 3) 0 = New 8 3 ∧ Shl 8 (New 8 3) 600 = ZeroW 8 ∧
    Shr 8 (Shl 8 (New 8 3) 5) 5
      = And (New 8 3) (Sub (Shl 8 (OneW 8) (512 - 5)) (OneW 8)) := by
  have h1 := (shift_laws (New 8 3) 600).1 rfl (by decide)
  have h2 := (shift_laws (New 8 3) 5).1 rfl (by decide)
  exact ⟨h1.1, (h1.2.1 (by norm_num)).1, h2.2.2 (by norm_num)⟩

end GUint
